import Mathlib

/-!
Verification development for the `website-scraper` repository.

Python strings are modelled as lists of characters (`Str := List Char`).
The `urllib.parse` functions used by the code (`urlsplit`, `urlparse`,
`urlunparse`, helpers) are embedded faithfully from CPython, restricted to
inputs on which they do not raise: the IPv6 bracket-imbalance `ValueError`
and the `_checknetloc` NFKC check (which can only fire on non-ASCII
netlocs) are omitted, i.e. parsing is modelled as total and NFKC
normalization as the identity, which is exact on ASCII data.
`str.lower` / `str.strip` are modelled with Lean's ASCII-aware
`Char.toLower` / `Char.isWhitespace`, exact on ASCII.
-/

set_option linter.unusedVariables false

abbrev Str := List Char

/-- Python `str.lower`, character-wise. -/
def pyLower (s : Str) : Str := s.map Char.toLower

/-- Python `str.strip()`: remove whitespace from both ends. -/
def pyStrip (s : Str) : Str :=
  ((s.dropWhile Char.isWhitespace).reverse.dropWhile Char.isWhitespace).reverse

/-- CPython `urllib.parse.scheme_chars`: letters, digits and `+-.` . -/
def isSchemeChar (c : Char) : Bool :=
  c.isAlpha || c.isDigit || c = '+' || c = '-' || c = '.'

/-- CPython `_UNSAFE_URL_BYTES_TO_REMOVE`: tab, CR, LF. -/
def isUnsafeUrlChar (c : Char) : Bool :=
  c = '\t' || c = '\r' || c = '\n'

/-- CPython `_WHATWG_C0_CONTROL_OR_SPACE`: code points up to 0x20. -/
def isC0OrSpace (c : Char) : Bool := c.toNat ≤ 0x20

/-- CPython `urlsplit` preamble: left-strip control/space characters,
then remove every tab, CR and LF (sequential `str.replace` of each unsafe
character by the empty string equals one filter). -/
def preprocess (url : Str) : Str :=
  (url.dropWhile isC0OrSpace).filter (fun c => !isUnsafeUrlChar c)

/-- CPython `urlsplit` scheme recognition: split at the first `:` when the
text before it is a letter followed by scheme characters; the scheme is
lower-cased.  Returns `(scheme, remainder)`; no scheme gives `([], url)`. -/
def splitScheme (url : Str) : Str × Str :=
  match url.dropWhile (fun c => c != ':') with
  | ':' :: after =>
    match url.takeWhile (fun c => c != ':') with
    | [] => ([], url)
    | c :: cs =>
      if c.isAlpha && cs.all isSchemeChar then (pyLower (c :: cs), after) else ([], url)
  | _ => ([], url)

/-- A character that terminates a netloc: `/`, `?` or `#`. -/
def isNetlocEnd (c : Char) : Bool := c = '/' || c = '?' || c = '#'

/-- CPython `_splitnetloc`: when the URL rest starts with `//`, the netloc
extends to the first of `/?#`; the remainder keeps the delimiter. -/
def splitNetloc (url : Str) : Str × Str :=
  match url with
  | '/' :: '/' :: rest =>
    (rest.takeWhile (fun c => !isNetlocEnd c), rest.dropWhile (fun c => !isNetlocEnd c))
  | _ => ([], url)

/-- CPython fragment split: `url.split('#', 1)` when `#` occurs, else the
fragment is empty.  Both cases collapse to take/drop at the first `#`. -/
def splitFragment (url : Str) : Str × Str :=
  (url.takeWhile (fun c => c != '#'), (url.dropWhile (fun c => c != '#')).drop 1)

/-- CPython query split: `url.split('?', 1)` at the first `?`. -/
def splitQuery (url : Str) : Str × Str :=
  (url.takeWhile (fun c => c != '?'), (url.dropWhile (fun c => c != '?')).drop 1)

structure SplitResult where
  scheme : Str
  netloc : Str
  path : Str
  query : Str
  fragment : Str
deriving DecidableEq

/-- CPython `urllib.parse.urlsplit` (total model; see file header). -/
def urlsplit (url0 : Str) : SplitResult :=
  let url1 := preprocess url0
  let p1 := splitScheme url1
  let p2 := splitNetloc p1.2
  let p3 := splitFragment p2.2
  let p4 := splitQuery p3.1
  ⟨p1.1, p2.1, p4.1, p4.2, p3.2⟩

/-- Split a string at its last `/`: `some (a, b)` with the input equal to
`a ++ '/' :: b` and `b` slash-free, or `none` when there is no slash. -/
def splitLastSlash (url : Str) : Option (Str × Str) :=
  match url.reverse.dropWhile (fun c => c != '/') with
  | '/' :: restRev =>
    some (restRev.reverse, (url.reverse.takeWhile (fun c => c != '/')).reverse)
  | _ => none

/-- CPython `_splitparams`: split path parameters at the first `;` after
the last `/` (or the first `;` overall when the path has no slash). -/
def splitparams (url : Str) : Str × Str :=
  match splitLastSlash url with
  | some (a, b) =>
    match b.dropWhile (fun c => c != ';') with
    | ';' :: b2 => (a ++ '/' :: b.takeWhile (fun c => c != ';'), b2)
    | _ => (url, [])
  | none =>
    match url.dropWhile (fun c => c != ';') with
    | ';' :: u2 => (url.takeWhile (fun c => c != ';'), u2)
    | _ => (url, [])

/-- CPython `uses_params` scheme list. -/
def uses_params : List Str :=
  [ [], ['f','t','p'], ['h','d','l'], ['p','r','o','s','p','e','r','o'],
    ['h','t','t','p'], ['i','m','a','p'], ['h','t','t','p','s'],
    ['s','h','t','t','p'], ['r','t','s','p'], ['r','t','s','p','u'],
    ['s','i','p'], ['s','i','p','s'], ['m','m','s'], ['s','f','t','p'],
    ['t','e','l'] ]

structure ParseResult where
  scheme : Str
  netloc : Str
  path : Str
  params : Str
  query : Str
  fragment : Str
deriving DecidableEq

/-- CPython `urllib.parse.urlparse`. -/
def urlparse (url : Str) : ParseResult :=
  let s := urlsplit url
  if s.scheme ∈ uses_params ∧ (';' : Char) ∈ s.path then
    let pp := splitparams s.path
    ⟨s.scheme, s.netloc, pp.1, pp.2, s.query, s.fragment⟩
  else
    ⟨s.scheme, s.netloc, s.path, [], s.query, s.fragment⟩

/-- CPython `urllib.parse.urlunsplit`. -/
def urlunsplit (scheme netloc url query fragment : Str) : Str :=
  let url1 :=
    if netloc ≠ [] ∨ (url ≠ [] ∧ url.take 2 = ['/', '/']) then
      ['/', '/'] ++ netloc ++
        (if url ≠ [] ∧ url.head? ≠ some '/' then '/' :: url else url)
    else url
  let url2 := if scheme ≠ [] then scheme ++ ':' :: url1 else url1
  let url3 := if query ≠ [] then url2 ++ '?' :: query else url2
  if fragment ≠ [] then url3 ++ '#' :: fragment else url3

/-- CPython `urllib.parse.urlunparse`. -/
def urlunparse (p : ParseResult) : Str :=
  let u := if p.params ≠ [] then p.path ++ ';' :: p.params else p.path
  urlunsplit p.scheme p.netloc u p.query p.fragment

/-- The characters of the string `http`. -/
def httpChars : Str := ['h', 't', 't', 'p']

/-- `SiteScraper._normalize` from `scraper.py`: default scheme and netloc
from the base URL, reject non-HTTP schemes, default an empty path to `/`,
strip the fragment, and reassemble. -/
def pyNormalizeUrl (base_url : Str) (url : Str) : Option Str :=
  if url = [] then none
  else
    let parsed := urlparse url
    let parsed :=
      if parsed.scheme = [] then { parsed with scheme := (urlparse base_url).scheme }
      else parsed
    let parsed :=
      if parsed.netloc = [] then { parsed with netloc := (urlparse base_url).netloc }
      else parsed
    if httpChars.isPrefixOf parsed.scheme then
      let normalized_path := if parsed.path = [] then ['/'] else parsed.path
      some (urlunparse { parsed with fragment := [], path := normalized_path })
    else none

/-- `normalize_base_url` from `utils.py`: default a missing scheme to
`https`, move a host written as a bare path into the netloc slot, and
reassemble with `geturl` (= `urlunparse`). -/
def normalize_base_url (url : Str) : Str :=
  let parsed := urlparse url
  let parsed :=
    if parsed.scheme = [] then { parsed with scheme := ['h','t','t','p','s'] }
    else parsed
  let parsed :=
    if parsed.netloc = [] then { parsed with netloc := parsed.path, path := [] }
    else parsed
  urlunparse parsed

structure FetchResult where
  status_code : Nat
  content : Str
  strategy : Str
deriving DecidableEq

/-- Exceptions are opaque; `Err` only needs decidable equality. -/
abbrev Err := Nat

abbrev FetchStrategy := Str → Except Err (Option FetchResult)

namespace HTTPFetcher

/-- The loop body of `HTTPFetcher.fetch`, threading `last_error`.
`.error last` models `raise RuntimeError(...) from last_error`. -/
def fetchGo (url : Str) : List FetchStrategy → Option Err → Except (Option Err) FetchResult
  | [], last => .error last
  | strategy :: rest, last =>
    match strategy url with
    | .error exc => fetchGo url rest (some exc)
    | .ok none => fetchGo url rest last
    | .ok (some result) => .ok result

/-- `HTTPFetcher.fetch`: try the strategies in order, return the first
success, raise carrying the last raised error when all fail. -/
def fetch (strategies : List FetchStrategy) (url : Str) : Except (Option Err) FetchResult :=
  fetchGo url strategies none

end HTTPFetcher

/-!
`scraper.py`: `PageContent` and `SiteScraper`.

The external collaborators of `SiteScraper` are modelled as function
fields: `fetch` is the injected `HTTPFetcher.fetch` (returning `none`
when it raises, which `scrape` catches), and `soupTitleString`,
`soupStrippedStrings`, `anchorHrefs`, `urljoin` stand for the
BeautifulSoup HTML parser and `urllib.parse.urljoin`, which are external
libraries: `soupTitleString html` is `soup.title.string` (when present),
`soupStrippedStrings html` is `list(soup.stripped_strings)`,
`anchorHrefs html` is `[a.get("href") for a in soup.find_all("a")]`, and
`urljoin base href` is the absolute form of a link.
-/

structure PageContent where
  url : Str
  title : Str
  text : Str
  raw_html : Str
  fetch_strategy : Str
deriving DecidableEq

structure Scraper where
  base_url : Str
  fetch : Str → Option FetchResult
  max_pages : Nat
  allowed_domains : List Str
  soupTitleString : Str → Option Str
  soupStrippedStrings : Str → List Str
  anchorHrefs : Str → List (Option Str)
  urljoin : Str → Str → Str

/-- The characters of the string `www.` . -/
def wwwChars : Str := ['w', 'w', 'w', '.']

/-- `SiteScraper.__init__`: derive the default allowed-domain set from the
base URL's netloc (the netloc plus its `www.`-prefixed or -stripped
counterpart); an explicit non-empty domain list overrides it.  Sets are
modelled as lists compared by membership. -/
def mkScraper (base_url : Str) (fetch : Str → Option FetchResult) (max_pages : Nat)
    (allowed_domains : Option (List Str))
    (soupTitleString : Str → Option Str) (soupStrippedStrings : Str → List Str)
    (anchorHrefs : Str → List (Option Str)) (urljoin : Str → Str → Str) : Scraper :=
  let parsed := urlparse base_url
  let default_domains :=
    if wwwChars.isPrefixOf parsed.netloc then [parsed.netloc, parsed.netloc.drop 4]
    else if parsed.netloc ≠ [] then [parsed.netloc, wwwChars ++ parsed.netloc]
    else [parsed.netloc]
  let provided := allowed_domains.getD []
  { base_url := base_url, fetch := fetch, max_pages := max_pages,
    allowed_domains := if provided ≠ [] then provided else default_domains,
    soupTitleString := soupTitleString, soupStrippedStrings := soupStrippedStrings,
    anchorHrefs := anchorHrefs, urljoin := urljoin }

namespace Scraper

/-- `SiteScraper._is_allowed`: HTTP-family scheme and netloc in the
allowed-domain set. -/
def is_allowed (s : Scraper) (url : Str) : Bool :=
  let parsed := urlparse url
  httpChars.isPrefixOf parsed.scheme && decide (parsed.netloc ∈ s.allowed_domains)

/-- `SiteScraper._normalize` with this scraper's base URL. -/
def normalize (s : Scraper) (url : Str) : Option Str :=
  pyNormalizeUrl s.base_url url

/-- `SiteScraper._parse_page`: title from the soup (stripped) with the
fetched URL as fallback, text as the newline-join of the non-empty
stripped strings. -/
def parse_page (s : Scraper) (url : Str) (fetch_result : FetchResult) : PageContent :=
  let title :=
    match s.soupTitleString fetch_result.content with
    | some t => pyStrip t
    | none => url
  let text_parts := (s.soupStrippedStrings fetch_result.content).map pyStrip
  let text := List.intercalate ['\n'] (text_parts.filter (fun part => part ≠ []))
  { url := url, title := title, text := text,
    raw_html := fetch_result.content, fetch_strategy := fetch_result.strategy }

/-- `SiteScraper._extract_links`: every non-empty href of an anchor,
resolved against the page URL, filtered to the allowed domains. -/
def extract_links (s : Scraper) (html : Str) (base_url : Str) : List Str :=
  (s.anchorHrefs html).filterMap fun href? =>
    match href? with
    | none => none
    | some href =>
      if href = [] then none
      else
        let absolute := s.urljoin base_url href
        if s.is_allowed absolute then some absolute else none

/-- The link-enqueueing loop at the bottom of `SiteScraper.scrape`: each
normalized link is appended unless it is `None`, already visited, or
already in the queue (checked against the queue as it grows). -/
def enqueueLinks (s : Scraper) (visited : List Str) : List Str → List Str → List Str
  | queue, [] => queue
  | queue, link :: links =>
    match s.normalize link with
    | none => enqueueLinks s visited queue links
    | some normalized_link =>
      if normalized_link ∈ visited then enqueueLinks s visited queue links
      else if normalized_link ∈ queue then enqueueLinks s visited queue links
      else enqueueLinks s visited (queue ++ [normalized_link]) links

/-- The seeding loop of `SiteScraper.scrape`: enqueue each seed's
normalized URL when it is non-empty and not in the visited set — which is
still empty at that point, so the second test never rejects. -/
def initQueue (s : Scraper) (seed_urls : List Str) : List Str :=
  seed_urls.foldl
    (fun queue url =>
      match s.normalize url with
      | some normalized =>
        if normalized ≠ [] ∧ normalized ∉ ([] : List Str) then queue ++ [normalized]
        else queue
      | none => queue)
    []

/-- Final crawl state: the collected pages, the visited set, and (as a
ghost trace) the URLs passed to `fetcher.fetch`, in call order. -/
structure ScrapeState where
  results : List PageContent
  visited : List Str
  fetched : List Str
deriving DecidableEq

/-- The main loop of `SiteScraper.scrape` (`while queue and len(results)
< max_pages`).  Termination: a successful fetch grows `results` (strictly
bounded by `max_pages`), every other branch shortens the queue. -/
def scrapeAux (s : Scraper) (queue visited : List Str) (results : List PageContent)
    (fetched : List Str) : ScrapeState :=
  match queue with
  | [] => ⟨results, visited, fetched⟩
  | url :: rest =>
    if h : results.length < s.max_pages then
      if url ∈ visited then scrapeAux s rest visited results fetched
      else if ¬ s.is_allowed url then scrapeAux s rest visited results fetched
      else
        match s.fetch url with
        | none => scrapeAux s rest (url :: visited) results (fetched ++ [url])
        | some fetch_result =>
          let page := s.parse_page url fetch_result
          let newQueue :=
            enqueueLinks s (url :: visited) rest (s.extract_links page.raw_html page.url)
          scrapeAux s newQueue (url :: visited) (results ++ [page]) (fetched ++ [url])
    else ⟨results, visited, fetched⟩
termination_by (s.max_pages - results.length, queue.length)
decreasing_by
  · exact Prod.Lex.right _ (Nat.lt_succ_self _)
  · exact Prod.Lex.right _ (Nat.lt_succ_self _)
  · exact Prod.Lex.right _ (Nat.lt_succ_self _)
  · exact Prod.Lex.left _ _ (by simp; omega)

/-- `SiteScraper.scrape`, with the full final state exposed. -/
def scrapeFull (s : Scraper) (seed_urls : List Str) : ScrapeState :=
  scrapeAux s (s.initQueue seed_urls) [] [] []

/-- `SiteScraper.scrape`. -/
def scrape (s : Scraper) (seed_urls : List Str) : List PageContent :=
  (s.scrapeFull seed_urls).results

end Scraper

/-!
`exporters.py`: `TextExporter.render` and the `PDFExporter` fallback
chain.  A PDF backend is modelled as a named function from the page list
to `Except Err Bytes`, where `.error` covers both the `ImportError` of a
missing library and any runtime failure — the chain handles the two
identically.  `Bytes` stands for the bytes the backend writes to the
destination file (read back by `export_to_bytes`).
-/

/-- The separator line of `TextExporter`: 80 `=` characters. -/
def sepLine : Str := List.replicate 80 '='

/-- `TextExporter.render`: build the list of chunks page by page exactly
as the Python code appends them to `lines`, then join with the empty
string (= concatenation). -/
def render (pages : List PageContent) : Str :=
  (pages.foldl
    (fun lines page =>
      lines ++
        [ ['#', ' '] ++ page.title ++ ['\n'],
          ['U','R','L',':',' '] ++ page.url ++ ['\n'],
          ['F','e','t','c','h','e','d',' ','v','i','a',':',' '] ++ page.fetch_strategy
            ++ ['\n', '\n'],
          page.text,
          ['\n', '\n'] ++ sepLine ++ ['\n', '\n'] ])
    []).flatten

abbrev Bytes := List Nat

abbrev PdfStrategy := Str × (List PageContent → Except Err Bytes)

namespace PDFExporter

/-- The loop of `PDFExporter.export`, threading `last_error`; on success
the strategy's name is returned.  `.error last` models
`raise RuntimeError("Unable to export PDF ...") from last_error`. -/
def exportGo (pages : List PageContent) :
    List PdfStrategy → Option Err → Except (Option Err) (Str × Bytes)
  | [], last => .error last
  | strategy :: rest, last =>
    match strategy.2 pages with
    | .error exc => exportGo pages rest (some exc)
    | .ok data => .ok (strategy.1, data)

/-- `PDFExporter.export_to_bytes`: run the export chain and return the
winning strategy's name together with the produced bytes. -/
def export_to_bytes (strategies : List PdfStrategy) (pages : List PageContent) :
    Except (Option Err) (Str × Bytes) :=
  exportGo pages strategies none

end PDFExporter

/-!
`duckduckgo.py`: percent-decoding, `parse_qs`, `_clean_result_url` and
the `DuckDuckGoSearcher.search` accumulation loop.

`unquote` is modelled as byte-wise percent-decoding (each `%XX` hex pair
becomes the character with that code), which is CPython's behaviour for
ASCII escapes; multi-byte UTF-8 escape sequences are decoded byte by
byte instead of being recombined, a difference invisible to every
claim (the decoded value is only compared for membership).

A search backend is modelled as the list of URLs its generator yields
before finishing or raising; a raised exception only truncates that list
and moves the loop to the next backend, exactly as the `except` clause
does, so backends that fail outright are lists that are empty.
-/

/-- Value of a hex digit, if any. -/
def hexVal (c : Char) : Option Nat :=
  if '0' ≤ c ∧ c ≤ '9' then some (c.toNat - '0'.toNat)
  else if 'a' ≤ c ∧ c ≤ 'f' then some (c.toNat - 'a'.toNat + 10)
  else if 'A' ≤ c ∧ c ≤ 'F' then some (c.toNat - 'A'.toNat + 10)
  else none

/-- Python `urllib.parse.unquote` (byte-wise model, see section header):
replace each `%XX` hex escape by the character with code `XX`; malformed
escapes are kept verbatim. -/
def unquote : Str → Str
  | [] => []
  | '%' :: c1 :: c2 :: rest =>
    match hexVal c1, hexVal c2 with
    | some h, some l => Char.ofNat (16 * h + l) :: unquote rest
    | _, _ => '%' :: unquote (c1 :: c2 :: rest)
  | c :: rest => c :: unquote rest

/-- Python `urllib.parse.unquote_plus`: `+` becomes a space, then
percent-decoding. -/
def unquote_plus (s : Str) : Str :=
  unquote (s.map fun c => if c = '+' then ' ' else c)

/-- Python `str.split(sep)` for a single-character separator. -/
def pySplitOn (sep : Char) : Str → List Str
  | [] => [[]]
  | c :: rest =>
    let tail := pySplitOn sep rest
    if c = sep then [] :: tail
    else
      match tail with
      | t :: ts => (c :: t) :: ts
      | [] => [[c]]

/-- CPython `parse_qsl` with default options: split the query on `&`,
keep only fields with a `=` and a non-empty value, decode names and
values with `unquote_plus`. -/
def parse_qsl (qs : Str) : List (Str × Str) :=
  (pySplitOn '&' qs).filterMap fun name_value =>
    if name_value = [] then none
    else
      let name := name_value.takeWhile (fun c => c != '=')
      match name_value.dropWhile (fun c => c != '=') with
      | '=' :: value => if value = [] then none else some (unquote_plus name, unquote_plus value)
      | _ => none

/-- CPython `parse_qs(...).get(key)`: the values of the fields with this
name, in order; `none` when the key is absent. -/
def parse_qs_get (qs : Str) (key : Str) : Option (List Str) :=
  let values := ((parse_qsl qs).filter (fun kv => kv.1 = key)).map (fun kv => kv.2)
  if values = [] then none else some values

/-- The characters of the string `duckduckgo.com`. -/
def ddgChars : Str := ['d','u','c','k','d','u','c','k','g','o','.','c','o','m']

/-- The characters of the string `/l/`. -/
def ddgRedirectChars : Str := ['/', 'l', '/']

/-- The characters of the string `uddg`. -/
def uddgChars : Str := ['u','d','d','g']

namespace DuckDuckGoSearcher

/-- `DuckDuckGoSearcher._clean_result_url`: unwrap a DuckDuckGo `/l/`
redirect by decoding its `uddg` query parameter; anything else passes
through unchanged, and an empty input gives `None`. -/
def clean_result_url (url : Str) : Option Str :=
  if url = [] then none
  else
    let parsed := urlparse url
    if ddgChars.isSuffixOf parsed.netloc ∧ ddgRedirectChars.isPrefixOf parsed.path then
      match parse_qs_get parsed.query uddgChars with
      | some (target0 :: _) => some (unquote target0)
      | _ => some url
    else some url

/-- The inner result loop of `DuckDuckGoSearcher.search` over one
backend's yielded URLs: clean, drop falsy or already-seen values, append,
and break as soon as the cap is reached.  The `seen` set always equals
the set of elements of `found`, so membership is checked on `found`. -/
def searchInner (max_results : Nat) : List Str → List Str → List Str
  | found, [] => found
  | found, url :: urls =>
    match clean_result_url url with
    | none => searchInner max_results found urls
    | some cleaned =>
      if cleaned = [] ∨ cleaned ∈ found then searchInner max_results found urls
      else
        let found' := found ++ [cleaned]
        if max_results ≤ found'.length then found'
        else searchInner max_results found' urls

/-- The outer strategy loop of `DuckDuckGoSearcher.search`. -/
def searchOuter (query : Str) (max_results : Nat) :
    List (Str → Nat → List Str) → List Str → List Str
  | [], found => found
  | strategy :: rest, found =>
    let found' := searchInner max_results found (strategy query max_results)
    if max_results ≤ found'.length then found'
    else searchOuter query max_results rest found'

/-- The characters of the string `site:`. -/
def siteQueryChars : Str := ['s','i','t','e',':']

/-- `DuckDuckGoSearcher.search`. -/
def search (strategies : List (Str → Nat → List Str)) (domain : Str)
    (max_results : Nat) : List Str :=
  searchOuter (siteQueryChars ++ domain) max_results strategies []

end DuckDuckGoSearcher

/-!
`services.py`: `ScrapeParameters`, `ScrapedPage`, `ScrapeOutcome` and
`perform_scrape`.

A `World` bundles every external collaborator the pipeline touches: the
DuckDuckGo backends, the HTTP fetcher (as seen by the crawl loop: `none`
models the `RuntimeError` that `scrape` catches), the HTML parser
functions and the PDF backends.  `timeout`, `pause` and `user_agent`
only shape network behaviour, which is inside `fetch`/`searchStrategies`
already; the `user_agent` field is kept for the record.
-/

structure ScrapeParameters where
  url : Str
  max_pages : Nat
  max_search_results : Nat
  user_agent : Str
deriving DecidableEq

structure ScrapedPage where
  url : Str
  title : Str
  fetch_strategy : Str
deriving DecidableEq

/-- `ScrapedPage.from_page`. -/
def ScrapedPage.from_page (page : PageContent) : ScrapedPage :=
  ⟨page.url, page.title, page.fetch_strategy⟩

structure ScrapeOutcome where
  base_url : Str
  domain : Str
  pages : List PageContent
  rendered_text : Str
  pdf_bytes : Bytes
  pdf_strategy : Str
  serialized_pages : List ScrapedPage
deriving DecidableEq

structure World where
  searchStrategies : List (Str → Nat → List Str)
  fetch : Str → Option FetchResult
  soupTitleString : Str → Option Str
  soupStrippedStrings : Str → List Str
  anchorHrefs : Str → List (Option Str)
  urljoin : Str → Str → Str
  pdfStrategies : List PdfStrategy

/-- The seed-list construction in `perform_scrape`: the base URL first,
then every search result on the same domain that is not yet listed. -/
def buildSeeds (base_url domain : Str) (search_results : List Str) : List Str :=
  search_results.foldl
    (fun seed_urls result =>
      if (urlparse result).netloc = domain ∧ result ∉ seed_urls then seed_urls ++ [result]
      else seed_urls)
    [base_url]

/-- The pages collected by the pipeline of `perform_scrape`, up to and
including `scraper.scrape(seed_urls)`. -/
def pipelinePages (w : World) (params : ScrapeParameters) : List PageContent :=
  let base_url := normalize_base_url params.url
  let domain := (urlparse base_url).netloc
  let search_results :=
    DuckDuckGoSearcher.search w.searchStrategies domain params.max_search_results
  let seed_urls := buildSeeds base_url domain search_results
  let scraper := mkScraper base_url w.fetch params.max_pages none
    w.soupTitleString w.soupStrippedStrings w.anchorHrefs w.urljoin
  scraper.scrape seed_urls

/-- `perform_scrape`: search, crawl, render the text artifact, then — only
when pages were collected — run the PDF chain, whose failure propagates
out; assemble the outcome. -/
def perform_scrape (w : World) (params : ScrapeParameters) :
    Except (Option Err) ScrapeOutcome :=
  let base_url := normalize_base_url params.url
  let domain := (urlparse base_url).netloc
  let pages := pipelinePages w params
  let rendered_text := render pages
  let serialized_pages := pages.map ScrapedPage.from_page
  if pages ≠ [] then
    match PDFExporter.export_to_bytes w.pdfStrategies pages with
    | .error e => .error e
    | .ok (pdf_strategy, pdf_bytes) =>
      .ok ⟨base_url, domain, pages, rendered_text, pdf_bytes, pdf_strategy, serialized_pages⟩
  else
    .ok ⟨base_url, domain, pages, rendered_text, [], [], serialized_pages⟩

/-!
Claim-level notions for the crawl engine.
-/

namespace Scraper

/-- The normalized in-domain links discovered from a fetched page `u`:
what the crawl loop would try to enqueue after fetching `u`. -/
def succLinks (s : Scraper) (u : Str) : List Str :=
  match s.fetch u with
  | some f => (s.extract_links f.content u).filterMap s.normalize
  | none => []

/-- The reachable, in-domain, fetchable page set of a crawl: normalized
roots that are allowed and fetchable, closed under following the
normalized allowed fetchable links of fetched pages. -/
inductive ReachesFrom (s : Scraper) (roots : List Str) : Str → Prop where
  | root : ∀ u, u ∈ roots → s.is_allowed u = true → (s.fetch u).isSome = true →
      ReachesFrom s roots u
  | step : ∀ u v, ReachesFrom s roots u → v ∈ s.succLinks u → s.is_allowed v = true →
      (s.fetch v).isSome = true → ReachesFrom s roots v

end Scraper

/-!
Concrete instances used by witnesses and counterexamples.
-/

/-- An HTML-parser model with no titles, no text and no anchors. -/
def noSoupTitle : Str → Option Str := fun _ => none

def noSoupText : Str → List Str := fun _ => []

def noAnchors : Str → List (Option Str) := fun _ => []

def idJoin : Str → Str → Str := fun _ href => href

/-- The characters of `http://a.com`. -/
def exBase : Str := ['h','t','t','p',':','/','/','a','.','c','o','m']

/-- The characters of `http://a.com/x` (its own normal form). -/
def exSeed : Str := ['h','t','t','p',':','/','/','a','.','c','o','m','/','x']

/-- A scraper over `http://a.com` whose fetcher always fails. -/
def exScraperNoFetch : Scraper :=
  mkScraper exBase (fun _ => none) 5 none noSoupTitle noSoupText noAnchors idJoin

/-- A fetcher that succeeds exactly on `http://a.com/x`. -/
def w1Fetch : Str → Option FetchResult :=
  fun u => if u = exSeed then some ⟨200, [], ['r','e','q','u','e','s','t','s']⟩ else none

/-- A scraper over `http://a.com` with page budget 1 and one fetchable page. -/
def w1Scraper : Scraper :=
  mkScraper exBase w1Fetch 1 none noSoupTitle noSoupText noAnchors idJoin

/-!
Theorems.  Crawl-engine lemmas first.
-/

def reqChars : Str := ['r','e','q','u','e','s','t','s']

def wPage : PageContent := ⟨exSeed, exSeed, [], [], reqChars⟩

/-- The exception raised by a backend attempt, if any. -/
def raisedErr (x : Except Err (Option FetchResult)) : Option Err :=
  match x with
  | .error e => some e
  | .ok _ => none

def reqResult : FetchResult := ⟨200, [], reqChars⟩

/-- A backend that always raises (exception code 7). -/
def cFail : FetchStrategy := fun _ => .error 7

/-- A backend that is structurally unavailable. -/
def cUnavail : FetchStrategy := fun _ => .ok none

/-- A backend that always succeeds. -/
def cOk : FetchStrategy := fun _ => .ok (some reqResult)

/-- A text line: content followed by a newline. -/
def c5Line (s : Str) : Str := s ++ ['\n']

/-- A blank line. -/
def c5BlankLine : Str := ['\n']

/-- The per-page block exactly as claim C5 words it (spec §6): a line
`# title`, a blank line, a `URL:` line, a `Fetched via:` line, a blank
line, the flattened text (closed by a newline), a blank line, the 80-`=`
separator line, and a trailing blank line.  Stated from the spec's words
for comparison against `render`. -/
def c5ClaimBlock (page : PageContent) : Str :=
  c5Line (['#', ' '] ++ page.title) ++ c5BlankLine ++
  c5Line (['U','R','L',':',' '] ++ page.url) ++
  c5Line (['F','e','t','c','h','e','d',' ','v','i','a',':',' '] ++ page.fetch_strategy) ++
  c5BlankLine ++ c5Line page.text ++ c5BlankLine ++ c5Line sepLine ++ c5BlankLine

/-- The per-page block the code actually produces: as `c5ClaimBlock` but
with no blank line between the title line and the `URL:` line. -/
def c5AmendedBlock (page : PageContent) : Str :=
  c5Line (['#', ' '] ++ page.title) ++
  c5Line (['U','R','L',':',' '] ++ page.url) ++
  c5Line (['F','e','t','c','h','e','d',' ','v','i','a',':',' '] ++ page.fetch_strategy) ++
  c5BlankLine ++ c5Line page.text ++ c5BlankLine ++ c5Line sepLine ++ c5BlankLine

/-- A concrete page for the C5 counterexample. -/
def c5Page : PageContent := ⟨['u'], ['t'], ['x'], [], ['s']⟩

/-- A search backend yielding one fixed URL. -/
def c7Strategy : Str → Nat → List Str := fun _ _ => [exSeed]

/-- The characters of `a.com`. -/
def aComChars : Str := ['a','.','c','o','m']

/-- Parameters whose URL keeps its non-HTTP `ftp` scheme, so the single
seed fails normalization and the crawl collects nothing. -/
def c10Params : ScrapeParameters := ⟨['f','t','p',':','/','/','x'], 5, 3, []⟩

/-- A world with no search backends, a failing fetcher and no PDF
backends. -/
def c10World : World := ⟨[], fun _ => none, noSoupTitle, noSoupText, noAnchors, idJoin, []⟩

/-- The scraper `perform_scrape` builds for `c10World`/`c10Params`. -/
def c10Scraper : Scraper :=
  mkScraper (normalize_base_url c10Params.url) c10World.fetch c10Params.max_pages none
    c10World.soupTitleString c10World.soupStrippedStrings c10World.anchorHrefs c10World.urljoin

/-- The seed list `perform_scrape` builds for `c10World`/`c10Params`. -/
def c10Seeds : List Str :=
  buildSeeds (normalize_base_url c10Params.url)
    (urlparse (normalize_base_url c10Params.url)).netloc
    (DuckDuckGoSearcher.search c10World.searchStrategies
      (urlparse (normalize_base_url c10Params.url)).netloc c10Params.max_search_results)

/-- The characters of `http://a.com/` (the base URL's normal form). -/
def exBaseSlash : Str := ['h','t','t','p',':','/','/','a','.','c','o','m','/']

/-- Parameters crawling `http://a.com`. -/
def c6Params : ScrapeParameters := ⟨exBase, 5, 3, []⟩

/-- The page-name characters of the two failing PDF backends. -/
def fpdfName : Str := ['_','e','x','p','o','r','t','_','w','i','t','h','_','f','p','d','f']

def reportlabName : Str :=
  ['_','e','x','p','o','r','t','_','w','i','t','h','_','r','e','p','o','r','t','l','a','b']

/-- A world whose fetcher serves exactly the normalized base page and
whose two PDF backends both raise (errors 3 and 4). -/
def c6World : World :=
  ⟨[], fun u => if u = exBaseSlash then some ⟨200, [], reqChars⟩ else none,
   noSoupTitle, noSoupText, noAnchors, idJoin,
   [(fpdfName, fun _ => .error 3), (reportlabName, fun _ => .error 4)]⟩

/-- The one page the `c6World` crawl collects. -/
def c6Page : PageContent := ⟨exBaseSlash, exBaseSlash, [], [], reqChars⟩

/-- The scraper `perform_scrape` builds for `c6World`/`c6Params`. -/
def c6Scraper : Scraper :=
  mkScraper (normalize_base_url c6Params.url) c6World.fetch c6Params.max_pages none
    c6World.soupTitleString c6World.soupStrippedStrings c6World.anchorHrefs c6World.urljoin

/-- The seed list `perform_scrape` builds for `c6World`/`c6Params`. -/
def c6Seeds : List Str :=
  buildSeeds (normalize_base_url c6Params.url)
    (urlparse (normalize_base_url c6Params.url)).netloc
    (DuckDuckGoSearcher.search c6World.searchStrategies
      (urlparse (normalize_base_url c6Params.url)).netloc c6Params.max_search_results)

/-- The scheme shape produced by `splitScheme`: a lower-case letter head,
scheme-character tail, fixed under `pyLower`. -/
def GoodSchemeLower (s : Str) : Prop :=
  (∃ c cs, s = c :: cs ∧ c.isAlpha = true ∧ (∀ x ∈ cs, isSchemeChar x = true)) ∧
  pyLower s = s

/-- Wellformedness of the components a `urlsplit` returns. -/
structure SplitWF (r : SplitResult) : Prop where
  scheme_ok : r.scheme = [] ∨ GoodSchemeLower r.scheme
  netloc_ok : ∀ c ∈ r.netloc, isNetlocEnd c = false ∧ isUnsafeUrlChar c = false
  path_ok : ∀ c ∈ r.path, c ≠ '#' ∧ c ≠ '?' ∧ isUnsafeUrlChar c = false
  query_ok : ∀ c ∈ r.query, c ≠ '#' ∧ isUnsafeUrlChar c = false

/-- The segment of a string after its last slash (the whole string when
it has no slash). -/
def afterLastSlash (s : Str) : Str := (s.reverse.takeWhile (fun c => c != '/')).reverse

/-- Wellformedness of the components a `urlparse` returns. -/
structure ParseWF (r : ParseResult) : Prop where
  scheme_ok : r.scheme = [] ∨ GoodSchemeLower r.scheme
  netloc_ok : ∀ c ∈ r.netloc, isNetlocEnd c = false ∧ isUnsafeUrlChar c = false
  path_ok : ∀ c ∈ r.path, c ≠ '#' ∧ c ≠ '?' ∧ isUnsafeUrlChar c = false
  params_ok : ∀ c ∈ r.params, c ≠ '#' ∧ c ≠ '?' ∧ c ≠ '/' ∧ isUnsafeUrlChar c = false
  query_ok : ∀ c ∈ r.query, c ≠ '#' ∧ isUnsafeUrlChar c = false
  semi_ok : r.params ≠ [] → (';' : Char) ∉ afterLastSlash r.path
  nosplit_ok : r.params = [] →
    (r.scheme ∉ uses_params ∨ (';' : Char) ∉ r.path ∨
      (('/' : Char) ∈ r.path ∧ (';' : Char) ∉ afterLastSlash r.path))

/-- The slash-prefixing `urlunsplit` applies to the path when a netloc is
emitted. -/
def prefixSlash (n u : Str) : Str :=
  if n ≠ [] ∨ (u ≠ [] ∧ u.take 2 = ['/', '/']) then
    (if u ≠ [] ∧ u.head? ≠ some '/' then '/' :: u else u)
  else u

namespace Scraper

theorem enqueueLinks_mono (s : Scraper) (visited : List Str) :
    ∀ links queue u, u ∈ queue → u ∈ s.enqueueLinks visited queue links := by
  intro links
  induction links with
  | nil => intro queue u hu; simpa [enqueueLinks] using hu
  | cons link links ih =>
    intro queue u hu
    rw [enqueueLinks]
    cases hn : s.normalize link with
    | none => exact ih queue u hu
    | some n =>
      by_cases hv : n ∈ visited
      · simp only [if_pos hv]; exact ih queue u hu
      · by_cases hq : n ∈ queue
        · simp only [if_neg hv, if_pos hq]; exact ih queue u hu
        · simp only [if_neg hv, if_neg hq]
          exact ih (queue ++ [n]) u (by simp [hu])

theorem enqueueLinks_covers (s : Scraper) (visited : List Str) :
    ∀ links queue n, n ∈ links.filterMap s.normalize →
      n ∈ visited ∨ n ∈ s.enqueueLinks visited queue links := by
  intro links
  induction links with
  | nil => intro queue n hn; simp at hn
  | cons link links ih =>
    intro queue n hn
    rw [List.filterMap_cons] at hn
    rw [enqueueLinks]
    cases hnorm : s.normalize link with
    | none =>
      rw [hnorm] at hn
      exact ih queue n hn
    | some m =>
      rw [hnorm] at hn
      rcases List.mem_cons.mp hn with rfl | hn
      · by_cases hv : n ∈ visited
        · exact Or.inl hv
        · by_cases hq : n ∈ queue
          · simp only [if_neg hv, if_pos hq]
            exact Or.inr (enqueueLinks_mono s visited links queue n hq)
          · simp only [if_neg hv, if_neg hq]
            exact Or.inr (enqueueLinks_mono s visited links (queue ++ [n]) n (by simp))
      · cases hnorm2 : s.normalize link with
        | none => simp [hnorm] at hnorm2
        | some m2 =>
          rw [hnorm] at hnorm2
          cases hnorm2
          by_cases hv : m ∈ visited
          · simp only [if_pos hv]; exact ih queue n hn
          · by_cases hq : m ∈ queue
            · simp only [if_neg hv, if_pos hq]; exact ih queue n hn
            · simp only [if_neg hv, if_neg hq]; exact ih (queue ++ [m]) n hn

theorem enqueueLinks_nodup (s : Scraper) (visited : List Str) :
    ∀ links queue, queue.Nodup → (s.enqueueLinks visited queue links).Nodup := by
  intro links
  induction links with
  | nil => intro queue hq; simpa [enqueueLinks] using hq
  | cons link links ih =>
    intro queue hq
    rw [enqueueLinks]
    cases hn : s.normalize link with
    | none => exact ih queue hq
    | some n =>
      by_cases hv : n ∈ visited
      · simp only [if_pos hv]; exact ih queue hq
      · by_cases hmem : n ∈ queue
        · simp only [if_neg hv, if_pos hmem]; exact ih queue hq
        · simp only [if_neg hv, if_neg hmem]
          exact ih (queue ++ [n]) (by simp [List.nodup_append, hq, hmem])

theorem enqueueLinks_disjoint (s : Scraper) (visited : List Str) :
    ∀ links queue, (∀ u ∈ queue, u ∉ visited) →
      ∀ u ∈ s.enqueueLinks visited queue links, u ∉ visited := by
  intro links
  induction links with
  | nil => intro queue hq; simpa [enqueueLinks] using hq
  | cons link links ih =>
    intro queue hq
    rw [enqueueLinks]
    cases hn : s.normalize link with
    | none => exact ih queue hq
    | some n =>
      by_cases hv : n ∈ visited
      · simp only [if_pos hv]; exact ih queue hq
      · by_cases hmem : n ∈ queue
        · simp only [if_neg hv, if_pos hmem]; exact ih queue hq
        · simp only [if_neg hv, if_neg hmem]
          refine ih (queue ++ [n]) ?_
          intro u hu
          rcases List.mem_append.mp hu with hu | hu
          · exact hq u hu
          · rw [List.mem_singleton] at hu; subst hu; exact hv

theorem ReachesFrom.allowed {s : Scraper} {roots : List Str} {u : Str}
    (h : ReachesFrom s roots u) : s.is_allowed u = true := by
  cases h <;> assumption

theorem ReachesFrom.fetchSome {s : Scraper} {roots : List Str} {u : Str}
    (h : ReachesFrom s roots u) : (s.fetch u).isSome = true := by
  cases h <;> assumption

end Scraper

namespace Scraper

/-- Shared crawl invariant: the fetch trace has no repeats and sits inside
the visited set; results come from allowed, successfully fetched URLs;
every visited URL is allowed. -/
theorem scrapeAux_inv (s : Scraper) (queue visited : List Str)
    (results : List PageContent) (fetched : List Str)
    (hTd : fetched.Nodup) (hTv : ∀ u ∈ fetched, u ∈ visited)
    (hRes : ∀ p ∈ results, (s.fetch p.url).isSome = true ∧ s.is_allowed p.url = true)
    (hVis : ∀ u ∈ visited, s.is_allowed u = true) :
    (s.scrapeAux queue visited results fetched).fetched.Nodup ∧
    (∀ u ∈ (s.scrapeAux queue visited results fetched).fetched,
        u ∈ (s.scrapeAux queue visited results fetched).visited) ∧
    (∀ p ∈ (s.scrapeAux queue visited results fetched).results,
        (s.fetch p.url).isSome = true ∧ s.is_allowed p.url = true) ∧
    (∀ u ∈ (s.scrapeAux queue visited results fetched).visited,
        s.is_allowed u = true) := by
  induction queue, visited, results, fetched using scrapeAux.induct s with
  | case1 visited results fetched =>
    rw [scrapeAux]; exact ⟨hTd, hTv, hRes, hVis⟩
  | case2 visited results fetched url rest hlt hmem ih =>
    rw [scrapeAux]; simp only [dif_pos hlt, if_pos hmem]
    exact ih hTd hTv hRes hVis
  | case3 visited results fetched url rest hlt hmem hall ih =>
    rw [scrapeAux]; simp only [dif_pos hlt, if_neg hmem, if_pos hall]
    exact ih hTd hTv hRes hVis
  | case4 visited results fetched url rest hlt hmem hall hfetch ih =>
    rw [scrapeAux]; simp only [dif_pos hlt, if_neg hmem, if_neg hall, hfetch]
    have hallowed : s.is_allowed url = true := by
      by_contra hcon; exact hall hcon
    refine ih ?_ ?_ hRes ?_
    · simp [List.nodup_append, hTd]
      intro hmem2; exact hmem (hTv url hmem2)
    · intro u hu
      rcases List.mem_append.mp hu with hu | hu
      · exact List.mem_cons_of_mem _ (hTv u hu)
      · rw [List.mem_singleton] at hu; subst hu; exact List.mem_cons_self _ _
    · intro u hu
      rcases List.mem_cons.mp hu with rfl | hu
      · exact hallowed
      · exact hVis u hu
  | case5 visited results fetched url rest hlt hmem hall fetch_result hfetch page newQueue ih =>
    rw [scrapeAux]; simp only [dif_pos hlt, if_neg hmem, if_neg hall, hfetch]
    have hallowed : s.is_allowed url = true := by
      by_contra hcon; exact hall hcon
    refine ih ?_ ?_ ?_ ?_
    · simp [List.nodup_append, hTd]
      intro hmem2; exact hmem (hTv url hmem2)
    · intro u hu
      rcases List.mem_append.mp hu with hu | hu
      · exact List.mem_cons_of_mem _ (hTv u hu)
      · rw [List.mem_singleton] at hu; subst hu; exact List.mem_cons_self _ _
    · intro p hp
      rcases List.mem_append.mp hp with hp | hp
      · exact hRes p hp
      · rw [List.mem_singleton] at hp; subst hp
        constructor
        · show (s.fetch (s.parse_page url fetch_result).url).isSome = true
          simp [parse_page, hfetch]
        · show s.is_allowed (s.parse_page url fetch_result).url = true
          simpa [parse_page] using hallowed
    · intro u hu
      rcases List.mem_cons.mp hu with rfl | hu
      · exact hallowed
      · exact hVis u hu
  | case6 visited results fetched url rest hlt =>
    rw [scrapeAux]; simp only [dif_neg hlt]
    exact ⟨hTd, hTv, hRes, hVis⟩

end Scraper

namespace Scraper

/-- BFS completeness: from a state whose invariants tie the reachable set
to `visited ∪ queue`, the crawl either fills the budget exactly or ends
with every reachable page visited and collected. -/
theorem scrapeAux_complete (s : Scraper) (roots : List Str)
    (queue visited : List Str) (results : List PageContent) (fetched : List Str)
    (hA : ∀ u ∈ roots, ReachesFrom s roots u → u ∈ visited ∨ u ∈ queue)
    (hB : ∀ u ∈ visited, ReachesFrom s roots u → ∀ v ∈ s.succLinks u,
            ReachesFrom s roots v → v ∈ visited ∨ v ∈ queue)
    (hC : ∀ u ∈ visited, ReachesFrom s roots u → u ∈ results.map PageContent.url)
    (hlen : results.length ≤ s.max_pages) :
    (s.scrapeAux queue visited results fetched).results.length = s.max_pages ∨
      ((∀ u, ReachesFrom s roots u → u ∈ (s.scrapeAux queue visited results fetched).visited) ∧
       (∀ u ∈ (s.scrapeAux queue visited results fetched).visited, ReachesFrom s roots u →
          u ∈ ((s.scrapeAux queue visited results fetched).results.map PageContent.url))) := by
  induction queue, visited, results, fetched using scrapeAux.induct s with
  | case1 visited results fetched =>
    rw [scrapeAux]
    refine Or.inr ⟨?_, hC⟩
    intro u hu
    induction hu with
    | root v hv hall hsome =>
      rcases hA v hv (.root v hv hall hsome) with h | h
      · exact h
      · simp at h
    | step v w hv hw hall hsome ih =>
      rcases hB v ih (by assumption) w hw (.step v w (by assumption) hw hall hsome) with h | h
      · exact h
      · simp at h
  | case2 visited results fetched url rest hlt hmem ih =>
    rw [scrapeAux]; simp only [dif_pos hlt, if_pos hmem]
    refine ih ?_ ?_ hC hlen
    · intro u hu hr
      rcases hA u hu hr with h | h
      · exact Or.inl h
      · rcases List.mem_cons.mp h with rfl | h
        · exact Or.inl hmem
        · exact Or.inr h
    · intro u hu hr v hv hrv
      rcases hB u hu hr v hv hrv with h | h
      · exact Or.inl h
      · rcases List.mem_cons.mp h with rfl | h
        · exact Or.inl hmem
        · exact Or.inr h
  | case3 visited results fetched url rest hlt hmem hall ih =>
    rw [scrapeAux]; simp only [dif_pos hlt, if_neg hmem, if_pos hall]
    refine ih ?_ ?_ hC hlen
    · intro u hu hr
      rcases hA u hu hr with h | h
      · exact Or.inl h
      · rcases List.mem_cons.mp h with rfl | h
        · exact absurd hr.allowed hall
        · exact Or.inr h
    · intro u hu hr v hv hrv
      rcases hB u hu hr v hv hrv with h | h
      · exact Or.inl h
      · rcases List.mem_cons.mp h with rfl | h
        · exact absurd hrv.allowed hall
        · exact Or.inr h
  | case4 visited results fetched url rest hlt hmem hall hfetch ih =>
    rw [scrapeAux]; simp only [dif_pos hlt, if_neg hmem, if_neg hall, hfetch]
    have hnr : ¬ ReachesFrom s roots url := by
      intro hr
      have := hr.fetchSome
      rw [hfetch] at this
      simp at this
    refine ih ?_ ?_ ?_ hlen
    · intro u hu hr
      rcases hA u hu hr with h | h
      · exact Or.inl (List.mem_cons_of_mem _ h)
      · rcases List.mem_cons.mp h with rfl | h
        · exact Or.inl (List.mem_cons_self _ _)
        · exact Or.inr h
    · intro u hu hr v hv hrv
      rcases List.mem_cons.mp hu with rfl | hu
      · exact absurd hr hnr
      · rcases hB u hu hr v hv hrv with h | h
        · exact Or.inl (List.mem_cons_of_mem _ h)
        · rcases List.mem_cons.mp h with rfl | h
          · exact Or.inl (List.mem_cons_self _ _)
          · exact Or.inr h
    · intro u hu hr
      rcases List.mem_cons.mp hu with rfl | hu
      · exact absurd hr hnr
      · exact hC u hu hr
  | case5 visited results fetched url rest hlt hmem hall fetch_result hfetch page newQueue ih =>
    rw [scrapeAux]; simp only [dif_pos hlt, if_neg hmem, if_neg hall, hfetch]
    have hsucc : s.succLinks url =
        (s.extract_links page.raw_html page.url).filterMap s.normalize := by
      rw [succLinks, hfetch]; rfl
    refine ih ?_ ?_ ?_ (by simpa using hlt)
    · intro u hu hr
      rcases hA u hu hr with h | h
      · exact Or.inl (List.mem_cons_of_mem _ h)
      · rcases List.mem_cons.mp h with rfl | h
        · exact Or.inl (List.mem_cons_self _ _)
        · exact Or.inr (enqueueLinks_mono s _ _ rest u h)
    · intro u hu hr v hv hrv
      rcases List.mem_cons.mp hu with rfl | hu
      · rw [hsucc] at hv
        rcases enqueueLinks_covers s (u :: visited) _ rest v hv with h | h
        · exact Or.inl h
        · exact Or.inr h
      · rcases hB u hu hr v hv hrv with h | h
        · exact Or.inl (List.mem_cons_of_mem _ h)
        · rcases List.mem_cons.mp h with rfl | h
          · exact Or.inl (List.mem_cons_self _ _)
          · exact Or.inr (enqueueLinks_mono s _ _ rest v h)
    · intro u hu hr
      rcases List.mem_cons.mp hu with rfl | hu
      · refine List.mem_map.mpr ⟨page, by simp, ?_⟩
        show (s.parse_page u fetch_result).url = u
        simp [parse_page]
      · have := hC u hu hr
        rw [List.map_append]
        exact List.mem_append_left _ this
  | case6 visited results fetched url rest hlt =>
    rw [scrapeAux]; simp only [dif_neg hlt]
    exact Or.inl (Nat.le_antisymm hlen (Nat.le_of_not_lt hlt))

end Scraper

theorem w1_initQueue : w1Scraper.initQueue [exSeed] = [exSeed] := by decide

theorem w1_eval : w1Scraper.scrapeFull [exSeed] = ⟨[wPage], [exSeed], [exSeed]⟩ := by
  rw [Scraper.scrapeFull, w1_initQueue]
  rw [Scraper.scrapeAux.eq_def]
  simp only []
  rw [dif_pos (by decide : ([] : List PageContent).length < w1Scraper.max_pages)]
  rw [if_neg (by decide : ¬ (exSeed ∈ ([] : List Str)))]
  rw [if_neg (by decide : ¬ ¬ w1Scraper.is_allowed exSeed = true)]
  have hf : w1Scraper.fetch exSeed = some ⟨200, [], reqChars⟩ := by decide
  rw [hf]
  simp only []
  rw [Scraper.scrapeAux.eq_def]
  simp only []
  decide

theorem urlunsplit_ne_nil (scheme netloc url query fragment : Str) (h : scheme ≠ []) :
    urlunsplit scheme netloc url query fragment ≠ [] := by
  rcases scheme with _ | ⟨c, cs⟩
  · exact absurd rfl h
  · unfold urlunsplit
    simp only []
    split <;> split <;> simp

theorem pyNormalizeUrl_shape {base url v : Str} (h : pyNormalizeUrl base url = some v) :
    ∃ p : ParseResult, httpChars.isPrefixOf p.scheme = true ∧ v = urlunparse p := by
  unfold pyNormalizeUrl at h
  split at h
  · simp at h
  · simp only [] at h
    split at h <;> (try split at h) <;> (try split at h) <;> (try simp at h)
    all_goals refine ⟨_, ?_, h.symm⟩
    all_goals assumption

theorem Scraper.normalize_ne_nil {s : Scraper} {url v : Str}
    (h : s.normalize url = some v) : v ≠ [] := by
  obtain ⟨p, hp, rfl⟩ := pyNormalizeUrl_shape h
  unfold urlunparse
  refine urlunsplit_ne_nil _ _ _ _ _ ?_
  intro hnil
  rw [hnil] at hp
  simp [httpChars, List.isPrefixOf] at hp

/-- The seeding loop never rejects through its visited-membership test
(the set is empty), so the initial frontier is exactly the list of seeds
that normalize successfully, in order, duplicates included. -/
theorem initQueue_eq_filterMap (s : Scraper) (seed_urls : List Str) :
    s.initQueue seed_urls = seed_urls.filterMap s.normalize := by
  rw [Scraper.initQueue]
  suffices h : ∀ (seeds acc : List Str),
      (seeds.foldl
        (fun queue url =>
          match s.normalize url with
          | some normalized =>
            if normalized ≠ [] ∧ normalized ∉ ([] : List Str) then queue ++ [normalized]
            else queue
          | none => queue)
        acc) = acc ++ seeds.filterMap s.normalize by
    simpa using h seed_urls []
  intro seeds
  induction seeds with
  | nil => intro acc; simp
  | cons u seeds ih =>
    intro acc
    rw [List.foldl_cons, List.filterMap_cons]
    cases hn : s.normalize u with
    | none => simp only [hn]; exact ih acc
    | some n =>
      simp only [hn]
      rw [if_pos ⟨Scraper.normalize_ne_nil hn, by simp⟩, ih (acc ++ [n])]
      simp

theorem Scraper.scrapeAux_length_le (s : Scraper) (queue visited : List Str)
    (results : List PageContent) (fetched : List Str)
    (hres : results.length ≤ s.max_pages) :
    (s.scrapeAux queue visited results fetched).results.length ≤ s.max_pages := by
  induction queue, visited, results, fetched using Scraper.scrapeAux.induct s with
  | case1 visited results fetched =>
    rw [Scraper.scrapeAux]; exact hres
  | case2 visited results fetched url rest hlt hmem ih =>
    rw [Scraper.scrapeAux]; simp only [hmem, if_true, dif_pos hlt]; exact ih hres
  | case3 visited results fetched url rest hlt hmem hall ih =>
    rw [Scraper.scrapeAux]
    simp only [dif_pos hlt, if_neg hmem, if_pos hall]
    exact ih hres
  | case4 visited results fetched url rest hlt hmem hall hfetch ih =>
    rw [Scraper.scrapeAux]
    simp only [dif_pos hlt, if_neg hmem, if_neg hall, hfetch]
    exact ih hres
  | case5 visited results fetched url rest hlt hmem hall fetch_result hfetch page newQueue ih =>
    rw [Scraper.scrapeAux]
    simp only [dif_pos hlt, if_neg hmem, if_neg hall, hfetch]
    exact ih (by simpa using hlt)
  | case6 visited results fetched url rest hlt =>
    rw [Scraper.scrapeAux]
    simp only [dif_neg hlt]
    exact hres

/-- C1: for every crawl state reachable during `SiteScraper.scrape` the
collected pages never exceed `max_pages` (first conjunct: the bound is
preserved from any loop state, and the initial state has zero pages); and
whenever the reachable, in-domain, fetchable page set of the seed
frontier holds at least `max_pages` distinct pages, `scrape` returns
exactly `max_pages` pages (second conjunct). -/
theorem C1_budget_bound (s : Scraper) :
    (∀ queue visited results fetched, results.length ≤ s.max_pages →
      (s.scrapeAux queue visited results fetched).results.length ≤ s.max_pages) ∧
    (∀ (seed_urls l : List Str), l.Nodup →
      (∀ u ∈ l, Scraper.ReachesFrom s (s.initQueue seed_urls) u) →
      s.max_pages ≤ l.length →
      (s.scrape seed_urls).length = s.max_pages) := by
  constructor
  · intro queue visited results fetched h
    exact Scraper.scrapeAux_length_le s queue visited results fetched h
  · intro seed_urls l hnodup hreach hlen
    have hmain := Scraper.scrapeAux_complete s (s.initQueue seed_urls)
      (s.initQueue seed_urls) [] [] []
      (fun u hu _ => Or.inr hu)
      (fun u hu => absurd hu (List.not_mem_nil u))
      (fun u hu => absurd hu (List.not_mem_nil u))
      (Nat.zero_le _)
    have hub := Scraper.scrapeAux_length_le s (s.initQueue seed_urls) [] [] []
      (Nat.zero_le _)
    rcases hmain with h | ⟨hvis, hres⟩
    · exact h
    · have hsub : ∀ u ∈ l,
          u ∈ ((s.scrapeAux (s.initQueue seed_urls) [] [] []).results.map PageContent.url) := by
        intro u hu
        exact hres u (hvis u (hreach u hu)) (hreach u hu)
      have hle : l.length ≤
          ((s.scrapeAux (s.initQueue seed_urls) [] [] []).results.map PageContent.url).length :=
        (hnodup.subperm hsub).length_le
      rw [List.length_map] at hle
      have : s.max_pages ≤ (s.scrapeAux (s.initQueue seed_urls) [] [] []).results.length :=
        le_trans hlen hle
      rw [Scraper.scrape, Scraper.scrapeFull]
      omega

/-- C1 witness: a one-page site with budget 1 reaches the bound. -/
theorem C1_budget_bound_witness :
    ([exSeed] : List Str).Nodup ∧ w1Scraper.max_pages ≤ ([exSeed] : List Str).length ∧
    (w1Scraper.scrape [exSeed]).length = w1Scraper.max_pages := by
  refine ⟨by decide, by decide, ?_⟩
  refine (C1_budget_bound w1Scraper).2 [exSeed] [exSeed] (by decide) ?_ (by decide)
  intro u hu
  rw [List.mem_singleton] at hu
  subst hu
  exact .root _ (by decide) (by decide) (by decide)

/-- C2: over a whole crawl the multiset of URLs passed to `fetcher.fetch`
has no repeats; every fetched URL is recorded in the visited set (and the
visited set persists to the end, so a failed URL is never retried); and
every page in the results has a successfully fetching URL, so a URL whose
fetch fails never appears in the results. -/
theorem C2_no_duplicate_fetches (s : Scraper) (seed_urls : List Str) :
    (s.scrapeFull seed_urls).fetched.Nodup ∧
    (∀ u ∈ (s.scrapeFull seed_urls).fetched, u ∈ (s.scrapeFull seed_urls).visited) ∧
    (∀ p ∈ (s.scrapeFull seed_urls).results, (s.fetch p.url).isSome = true) := by
  have h := Scraper.scrapeAux_inv s (s.initQueue seed_urls) [] [] []
    List.nodup_nil (by simp) (by simp) (by simp)
  rw [Scraper.scrapeFull]
  exact ⟨h.1, h.2.1, fun p hp => (h.2.2.1 p hp).1⟩

/-- C2 witness: the one-page crawl fetches `http://a.com/x` once, records
it as visited, and its page fetches successfully. -/
theorem C2_no_duplicate_fetches_witness :
    exSeed ∈ (w1Scraper.scrapeFull [exSeed]).fetched ∧
    exSeed ∈ (w1Scraper.scrapeFull [exSeed]).visited ∧
    wPage ∈ (w1Scraper.scrapeFull [exSeed]).results ∧
    (w1Scraper.fetch wPage.url).isSome = true := by
  have hf : exSeed ∈ (w1Scraper.scrapeFull [exSeed]).fetched := by
    rw [w1_eval]; exact List.mem_singleton.mpr rfl
  have hp : wPage ∈ (w1Scraper.scrapeFull [exSeed]).results := by
    rw [w1_eval]; exact List.mem_singleton.mpr rfl
  exact ⟨hf, (C2_no_duplicate_fetches w1Scraper [exSeed]).2.1 exSeed hf, hp,
    (C2_no_duplicate_fetches w1Scraper [exSeed]).2.2 wPage hp⟩

/-- C3: every page collected by `SiteScraper.scrape` has its host in the
allowed-domain set; every URL ever passed to the fetcher satisfies
`_is_allowed` (so a URL with a host outside the set is never fetched);
and every URL marked visited satisfies `_is_allowed` (so a disallowed URL
is skipped without being marked visited, and, never being fetched, it
contributes nothing to the page budget). -/
theorem C3_domain_scoping (s : Scraper) (seed_urls : List Str) :
    (∀ p ∈ s.scrape seed_urls, (urlparse p.url).netloc ∈ s.allowed_domains) ∧
    (∀ u ∈ (s.scrapeFull seed_urls).fetched, s.is_allowed u = true) ∧
    (∀ u ∈ (s.scrapeFull seed_urls).visited, s.is_allowed u = true) := by
  have h := Scraper.scrapeAux_inv s (s.initQueue seed_urls) [] [] []
    List.nodup_nil (by simp) (by simp) (by simp)
  rw [Scraper.scrape, Scraper.scrapeFull]
  refine ⟨?_, ?_, h.2.2.2⟩
  · intro p hp
    have hall := (h.2.2.1 p hp).2
    rw [Scraper.is_allowed, Bool.and_eq_true, decide_eq_true_eq] at hall
    exact hall.2
  · intro u hu
    exact h.2.2.2 u (h.2.1 u hu)

/-- C3 witness: the collected page's host `a.com` is allowed, and the one
fetched and visited URL passes `_is_allowed`. -/
theorem C3_domain_scoping_witness :
    (urlparse wPage.url).netloc ∈ w1Scraper.allowed_domains ∧
    w1Scraper.is_allowed exSeed = true := by
  have hp : wPage ∈ w1Scraper.scrape [exSeed] := by
    rw [Scraper.scrape, w1_eval]; exact List.mem_singleton.mpr rfl
  have hf : exSeed ∈ (w1Scraper.scrapeFull [exSeed]).fetched := by
    rw [w1_eval]; exact List.mem_singleton.mpr rfl
  exact ⟨(C3_domain_scoping w1Scraper [exSeed]).1 wPage hp,
    (C3_domain_scoping w1Scraper [exSeed]).2.1 exSeed hf⟩

/-- C9 counterexample: with the seed `http://a.com/x` listed twice, the
seeding loop of `scrape` checks only the (empty) visited set, so the
frontier entering the crawl loop holds the same normalized URL twice:
the frontier reachable during `scrape` does contain duplicate entries. -/
theorem C9_counterexample :
    exScraperNoFetch.initQueue [exSeed, exSeed] = [exSeed, exSeed] ∧
    ¬ (exScraperNoFetch.initQueue [exSeed, exSeed]).Nodup := by
  constructor
  · decide
  · intro h
    rw [(by decide : exScraperNoFetch.initQueue [exSeed, exSeed] = [exSeed, exSeed])] at h
    simp at h

/-- C9 amended: the seeding loop checks only the empty visited set, so
the initial frontier is exactly the successfully normalized seeds in
order — duplicate seeds are double-enqueued; each discovered link is
enqueued only when it is neither visited nor already queued, so the
link-enqueue step preserves frontier dedup and keeps the frontier
disjoint from the visited set. -/
theorem C9_frontier_dedup (s : Scraper) :
    (∀ seed_urls : List Str, s.initQueue seed_urls = seed_urls.filterMap s.normalize) ∧
    (∀ (visited queue links : List Str), queue.Nodup →
      (s.enqueueLinks visited queue links).Nodup) ∧
    (∀ (visited queue links : List Str), (∀ u ∈ queue, u ∉ visited) →
      ∀ u ∈ s.enqueueLinks visited queue links, u ∉ visited) := by
  refine ⟨initQueue_eq_filterMap s, ?_, ?_⟩
  · intro visited queue links h
    exact Scraper.enqueueLinks_nodup s visited links queue h
  · intro visited queue links h
    exact Scraper.enqueueLinks_disjoint s visited links queue h

/-- C9 amended witness: concrete frontier and enqueue facts via the
amended theorem. -/
theorem C9_frontier_dedup_witness :
    exScraperNoFetch.initQueue [exSeed] = [exSeed].filterMap exScraperNoFetch.normalize ∧
    (exScraperNoFetch.enqueueLinks [exSeed] [] [exSeed]).Nodup ∧
    exSeed ∉ ([] : List Str) :=
  ⟨(C9_frontier_dedup exScraperNoFetch).1 [exSeed],
   (C9_frontier_dedup exScraperNoFetch).2.1 [exSeed] [] [exSeed] List.nodup_nil,
   (C9_frontier_dedup exScraperNoFetch).2.2 [] [exSeed] [] (by simp) exSeed (by decide)⟩

theorem HTTPFetcher.fetchGo_first_success (url : Str) (strat : FetchStrategy)
    (post : List FetchStrategy) (r : FetchResult) (hs : strat url = .ok (some r)) :
    ∀ (pre : List FetchStrategy) (last : Option Err),
      (∀ t ∈ pre, t url = .ok none ∨ ∃ e, t url = .error e) →
      HTTPFetcher.fetchGo url (pre ++ strat :: post) last = .ok r := by
  intro pre
  induction pre with
  | nil =>
    intro last _
    rw [List.nil_append, HTTPFetcher.fetchGo, hs]
  | cons t pre ih =>
    intro last hall
    rw [List.cons_append, HTTPFetcher.fetchGo]
    rcases hall t (List.mem_cons_self t _) with h | ⟨e, h⟩
    · rw [h]; exact ih last (fun t ht => hall t (List.mem_cons_of_mem _ ht))
    · rw [h]; exact ih (some e) (fun t ht => hall t (List.mem_cons_of_mem _ ht))

theorem HTTPFetcher.fetchGo_all_fail (url : Str) :
    ∀ (strategies : List FetchStrategy) (last : Option Err),
      (∀ t ∈ strategies, t url = .ok none ∨ ∃ e, t url = .error e) →
      HTTPFetcher.fetchGo url strategies last =
        .error ((match (strategies.filterMap fun t => raisedErr (t url)).getLast? with
                 | some e => some e
                 | none => last)) := by
  intro strategies
  induction strategies with
  | nil => intro last _; rw [HTTPFetcher.fetchGo]; rfl
  | cons t rest ih =>
    intro last hall
    rw [HTTPFetcher.fetchGo, List.filterMap_cons]
    rcases hall t (List.mem_cons_self t _) with h | ⟨e, h⟩
    · rw [h]
      show HTTPFetcher.fetchGo url rest last = _
      rw [ih last (fun t ht => hall t (List.mem_cons_of_mem _ ht))]
      rfl
    · rw [h]
      show HTTPFetcher.fetchGo url rest (some e) = _
      rw [ih (some e) (fun t ht => hall t (List.mem_cons_of_mem _ ht))]
      show _ = Except.error (match (e :: rest.filterMap fun t => raisedErr (t url)).getLast? with
        | some e => some e
        | none => last)
      cases hrest : (rest.filterMap fun t => raisedErr (t url)) with
      | nil => simp
      | cons e2 es =>
        cases h2 : (e2 :: es).getLast? with
        | some x => rw [List.getLast?_cons_cons, h2]
        | none => exact absurd h2 (by simp)

/-- C4: the fetch chain tries backends strictly in configured order: the
first strategy returning a result wins whatever comes after it (first
conjunct, quantified over every continuation `post`, so later strategies
are never invoked); a structurally unavailable backend (`None`) is
skipped exactly as a raising backend is, the chain continuing with the
remaining strategies (second and third conjuncts); and when every backend
fails the chain raises carrying the last underlying raised error (fourth
conjunct). -/
theorem C4_fetch_fallback_chain (url : Str) :
    (∀ (pre post : List FetchStrategy) (strat : FetchStrategy) (r : FetchResult),
      (∀ t ∈ pre, t url = .ok none ∨ ∃ e, t url = .error e) →
      strat url = .ok (some r) →
      HTTPFetcher.fetch (pre ++ strat :: post) url = .ok r) ∧
    (∀ (t : FetchStrategy) (rest : List FetchStrategy) (last : Option Err),
      t url = .ok none →
      HTTPFetcher.fetchGo url (t :: rest) last = HTTPFetcher.fetchGo url rest last) ∧
    (∀ (t : FetchStrategy) (rest : List FetchStrategy) (last : Option Err) (e : Err),
      t url = .error e →
      HTTPFetcher.fetchGo url (t :: rest) last = HTTPFetcher.fetchGo url rest (some e)) ∧
    (∀ strategies : List FetchStrategy,
      (∀ t ∈ strategies, t url = .ok none ∨ ∃ e, t url = .error e) →
      HTTPFetcher.fetch strategies url =
        .error ((strategies.filterMap fun t => raisedErr (t url)).getLast?)) := by
  refine ⟨?_, ?_, ?_, ?_⟩
  · intro pre post strat r hall hs
    exact HTTPFetcher.fetchGo_first_success url strat post r hs pre none hall
  · intro t rest last h
    rw [HTTPFetcher.fetchGo, h]
  · intro t rest last e h
    rw [HTTPFetcher.fetchGo, h]
  · intro strategies hall
    rw [HTTPFetcher.fetch, HTTPFetcher.fetchGo_all_fail url strategies none hall]
    cases (strategies.filterMap fun t => raisedErr (t url)).getLast? <;> rfl

/-- C4 witness: `[raise, unavailable, succeed, raise]` returns the third
backend's result; `[raise, unavailable]` raises carrying error 7. -/
theorem C4_fetch_fallback_chain_witness :
    HTTPFetcher.fetch [cFail, cUnavail, cOk, cFail] exSeed = .ok reqResult ∧
    HTTPFetcher.fetch [cFail, cUnavail] exSeed = .error (some 7) := by
  constructor
  · refine (C4_fetch_fallback_chain exSeed).1 [cFail, cUnavail] [cFail] cOk reqResult ?_ rfl
    intro t ht
    rcases List.mem_cons.mp ht with rfl | ht
    · exact Or.inr ⟨7, rfl⟩
    · rcases List.mem_cons.mp ht with rfl | ht
      · exact Or.inl rfl
      · simp at ht
  · have h := (C4_fetch_fallback_chain exSeed).2.2.2 [cFail, cUnavail] ?_
    · rw [h]; rfl
    · intro t ht
      rcases List.mem_cons.mp ht with rfl | ht
      · exact Or.inr ⟨7, rfl⟩
      · rcases List.mem_cons.mp ht with rfl | ht
        · exact Or.inl rfl
        · simp at ht

/-- C5 counterexample: on a one-page list the rendered text is not the
claimed concatenation — the code emits no blank line after the title
line, while the claimed shape has one. -/
theorem C5_counterexample : render [c5Page] ≠ c5ClaimBlock c5Page := by decide

/-- C5 amended: `TextExporter.render` returns exactly the concatenation,
in input order, of one block per page, where the block is `# title` line,
`URL:` line, `Fetched via:` line, blank line, flattened text, blank line,
the 80-`=` separator line and a trailing blank line (no blank line after
the title line). -/
theorem C5_render_layout (pages : List PageContent) :
    render pages = (pages.map c5AmendedBlock).flatten := by
  rw [render]
  suffices h : ∀ (ps : List PageContent) (acc : List Str),
      (ps.foldl
        (fun lines page =>
          lines ++
            [ ['#', ' '] ++ page.title ++ ['\n'],
              ['U','R','L',':',' '] ++ page.url ++ ['\n'],
              ['F','e','t','c','h','e','d',' ','v','i','a',':',' '] ++ page.fetch_strategy
                ++ ['\n', '\n'],
              page.text,
              ['\n', '\n'] ++ sepLine ++ ['\n', '\n'] ])
        acc).flatten = acc.flatten ++ (ps.map c5AmendedBlock).flatten by
    simpa using h pages []
  intro ps
  induction ps with
  | nil => intro acc; simp
  | cons page ps ih =>
    intro acc
    rw [List.foldl_cons, List.map_cons, ih]
    simp [c5AmendedBlock, c5Line, c5BlankLine]

namespace DuckDuckGoSearcher

theorem searchInner_nodup (max_results : Nat) :
    ∀ (urls found : List Str), found.Nodup → (searchInner max_results found urls).Nodup := by
  intro urls
  induction urls with
  | nil => intro found h; simpa [searchInner] using h
  | cons url urls ih =>
    intro found h
    cases hc : clean_result_url url with
    | none => simp only [searchInner, hc]; exact ih found h
    | some cleaned =>
      simp only [searchInner, hc]
      by_cases hskip : cleaned = [] ∨ cleaned ∈ found
      · rw [if_pos hskip]; exact ih found h
      · rw [if_neg hskip]
        have hnew : (found ++ [cleaned]).Nodup := by
          rw [List.nodup_append]
          refine ⟨h, List.nodup_singleton _, ?_⟩
          intro a ha hb
          rw [List.mem_singleton] at hb
          subst hb
          exact hskip (Or.inr ha)
        split
        · exact hnew
        · exact ih _ hnew

theorem searchInner_length (max_results : Nat) :
    ∀ (urls found : List Str), found.length < max_results →
      (searchInner max_results found urls).length ≤ max_results := by
  intro urls
  induction urls with
  | nil => intro found h; rw [searchInner]; omega
  | cons url urls ih =>
    intro found h
    cases hc : clean_result_url url with
    | none => simp only [searchInner, hc]; exact ih found h
    | some cleaned =>
      simp only [searchInner, hc]
      by_cases hskip : cleaned = [] ∨ cleaned ∈ found
      · rw [if_pos hskip]; exact ih found h
      · rw [if_neg hskip]
        split
        · simp; omega
        · refine ih _ ?_
          simp at *
          omega

theorem searchOuter_nodup (query : Str) (max_results : Nat) :
    ∀ (strategies : List (Str → Nat → List Str)) (found : List Str), found.Nodup →
      (searchOuter query max_results strategies found).Nodup := by
  intro strategies
  induction strategies with
  | nil => intro found h; simpa [searchOuter] using h
  | cons strategy rest ih =>
    intro found h
    rw [searchOuter]
    split
    · exact searchInner_nodup max_results _ found h
    · exact ih _ (searchInner_nodup max_results _ found h)

theorem searchOuter_length (query : Str) (max_results : Nat) :
    ∀ (strategies : List (Str → Nat → List Str)) (found : List Str),
      found.length < max_results →
      (searchOuter query max_results strategies found).length ≤ max_results := by
  intro strategies
  induction strategies with
  | nil => intro found h; rw [searchOuter]; omega
  | cons strategy rest ih =>
    intro found h
    rw [searchOuter]
    have hin := searchInner_length max_results (strategy query max_results) found h
    split
    · exact hin
    · rename_i hlt
      exact ih _ (by omega)

theorem searchOuter_all_empty (query : Str) (max_results : Nat) :
    ∀ strategies : List (Str → Nat → List Str),
      (∀ t ∈ strategies, t query max_results = []) →
      searchOuter query max_results strategies [] = [] := by
  intro strategies
  induction strategies with
  | nil => intro _; rw [searchOuter]
  | cons strategy rest ih =>
    intro h
    rw [searchOuter, h strategy (List.mem_cons_self _ _)]
    rw [searchInner]
    split
    · rfl
    · exact ih (fun t ht => h t (List.mem_cons_of_mem _ ht))

end DuckDuckGoSearcher

/-- C7 counterexample: with `maxResults = 0` and a backend that yields one
URL, `search` returns one result — the cap check runs only after an
append, so the returned list is longer than `maxResults`. -/
theorem C7_counterexample :
    DuckDuckGoSearcher.search [c7Strategy] aComChars 0 = [exSeed] ∧
    ¬ (DuckDuckGoSearcher.search [c7Strategy] aComChars 0).length ≤ 0 := by
  constructor
  · decide
  · intro h
    rw [(by decide : DuckDuckGoSearcher.search [c7Strategy] aComChars 0 = [exSeed])] at h
    simp at h

/-- C7 amended: `DuckDuckGoSearcher.search` always returns an ordered
list without duplicate URLs; its length is capped by `maxResults`
whenever `maxResults ≥ 1`; and it never raises — when every backend
yields nothing (in particular when every backend fails), the result is
the empty list. -/
theorem C7_search_contract (strategies : List (Str → Nat → List Str)) (domain : Str)
    (max_results : Nat) :
    (DuckDuckGoSearcher.search strategies domain max_results).Nodup ∧
    (1 ≤ max_results →
      (DuckDuckGoSearcher.search strategies domain max_results).length ≤ max_results) ∧
    ((∀ t ∈ strategies,
        t (DuckDuckGoSearcher.siteQueryChars ++ domain) max_results = []) →
      DuckDuckGoSearcher.search strategies domain max_results = []) := by
  refine ⟨?_, ?_, ?_⟩
  · exact DuckDuckGoSearcher.searchOuter_nodup _ max_results strategies [] List.nodup_nil
  · intro h
    exact DuckDuckGoSearcher.searchOuter_length _ max_results strategies []
      (by simpa using h)
  · intro h
    exact DuckDuckGoSearcher.searchOuter_all_empty _ max_results strategies h

/-- C7 amended witness: concrete dedup, cap and empty-backends facts. -/
theorem C7_search_contract_witness :
    (DuckDuckGoSearcher.search [c7Strategy, c7Strategy] aComChars 2).Nodup ∧
    (DuckDuckGoSearcher.search [c7Strategy, c7Strategy] aComChars 2).length ≤ 2 ∧
    DuckDuckGoSearcher.search [] aComChars 2 = [] :=
  ⟨(C7_search_contract [c7Strategy, c7Strategy] aComChars 2).1,
   (C7_search_contract [c7Strategy, c7Strategy] aComChars 2).2.1 (by decide),
   (C7_search_contract [] aComChars 2).2.2 (by simp)⟩

theorem Scraper.scrapeAux_nil (s : Scraper) (visited : List Str)
    (results : List PageContent) (fetched : List Str) :
    s.scrapeAux [] visited results fetched = ⟨results, visited, fetched⟩ := by
  rw [Scraper.scrapeAux]

theorem c10_pages_eval : pipelinePages c10World c10Params = [] := by
  show c10Scraper.scrape c10Seeds = []
  rw [Scraper.scrape, Scraper.scrapeFull,
    (by decide : c10Scraper.initQueue c10Seeds = []), Scraper.scrapeAux_nil]

/-- C10: when the crawl collects zero pages, `perform_scrape` returns
normally — the PDF-export step is skipped entirely, so no document-export
error can be raised — and the outcome carries empty PDF bytes, an empty
PDF-strategy name, an empty page sequence and empty rendered text. -/
theorem C10_empty_crawl (w : World) (params : ScrapeParameters)
    (h : pipelinePages w params = []) :
    perform_scrape w params =
      .ok ⟨normalize_base_url params.url, (urlparse (normalize_base_url params.url)).netloc,
           [], [], [], [], []⟩ := by
  unfold perform_scrape
  simp only []
  rw [h, if_neg (by simp)]
  rfl

/-- C10 witness: the `ftp://x` pipeline collects nothing and returns the
all-empty outcome. -/
theorem C10_empty_crawl_witness :
    pipelinePages c10World c10Params = [] ∧
    perform_scrape c10World c10Params =
      .ok ⟨normalize_base_url c10Params.url,
           (urlparse (normalize_base_url c10Params.url)).netloc, [], [], [], [], []⟩ :=
  ⟨c10_pages_eval, C10_empty_crawl c10World c10Params c10_pages_eval⟩

theorem c6_pages_eval : pipelinePages c6World c6Params = [c6Page] := by
  show c6Scraper.scrape c6Seeds = [c6Page]
  rw [Scraper.scrape, Scraper.scrapeFull,
    (by decide : c6Scraper.initQueue c6Seeds = [exBaseSlash])]
  rw [Scraper.scrapeAux.eq_def]
  simp only []
  rw [dif_pos (by decide : ([] : List PageContent).length < c6Scraper.max_pages)]
  rw [if_neg (by decide : ¬ (exBaseSlash ∈ ([] : List Str)))]
  rw [if_neg (by decide : ¬ ¬ c6Scraper.is_allowed exBaseSlash = true)]
  rw [(by decide : c6Scraper.fetch exBaseSlash =
    some (⟨200, [], reqChars⟩ : FetchResult))]
  simp only []
  rw [Scraper.scrapeAux.eq_def]
  simp only []
  decide

/-- C6 counterexample: with a non-empty page list and both PDF backends
failing, `perform_scrape` does not return an outcome at all — it
propagates the export error (carrying the second backend's error 4), so
no rendered text artifact and no page list are returned. -/
theorem C6_counterexample :
    pipelinePages c6World c6Params ≠ [] ∧
    perform_scrape c6World c6Params = .error (some 4) := by
  constructor
  · rw [c6_pages_eval]; simp
  · unfold perform_scrape
    simp only []
    rw [c6_pages_eval, if_pos (by simp)]
    rfl

theorem PDFExporter.exportGo_all_fail (pages : List PageContent) :
    ∀ (strategies : List PdfStrategy) (last : Option Err),
      (∀ st ∈ strategies, ∃ e, st.2 pages = .error e) →
      ∃ e', PDFExporter.exportGo pages strategies last = .error e' := by
  intro strategies
  induction strategies with
  | nil => intro last _; exact ⟨last, by rw [PDFExporter.exportGo]⟩
  | cons st rest ih =>
    intro last hall
    obtain ⟨e, he⟩ := hall st (List.mem_cons_self _ _)
    obtain ⟨e', he'⟩ := ih (some e) (fun t ht => hall t (List.mem_cons_of_mem _ ht))
    refine ⟨e', ?_⟩
    rw [PDFExporter.exportGo, he]
    exact he'

/-- C6 amended: when every document-export backend fails for a non-empty
page list, the failure is fatal for the whole `perform_scrape` call: the
export error propagates out and no outcome — hence neither the rendered
text artifact nor the page list — is returned. -/
theorem C6_export_failure_fatal (w : World) (params : ScrapeParameters)
    (hpages : pipelinePages w params ≠ [])
    (hfail : ∀ st ∈ w.pdfStrategies, ∃ e, st.2 (pipelinePages w params) = .error e) :
    ∃ e, perform_scrape w params = .error e := by
  obtain ⟨e, he⟩ :=
    PDFExporter.exportGo_all_fail (pipelinePages w params) w.pdfStrategies none hfail
  refine ⟨e, ?_⟩
  unfold perform_scrape
  simp only []
  rw [if_pos hpages]
  rw [(by rw [PDFExporter.export_to_bytes]; exact he :
    PDFExporter.export_to_bytes w.pdfStrategies (pipelinePages w params) =
      .error e)]

/-- C6 amended witness: the concrete failing-export session errors out. -/
theorem C6_export_failure_fatal_witness :
    ∃ e, perform_scrape c6World c6Params = .error e := by
  refine C6_export_failure_fatal c6World c6Params ?_ ?_
  · rw [c6_pages_eval]; simp
  · intro st hst
    rcases List.mem_cons.mp hst with rfl | hst
    · exact ⟨3, rfl⟩
    · rcases List.mem_cons.mp hst with rfl | hst
      · exact ⟨4, rfl⟩
      · simp at hst

/-!
Character-level facts used by the idempotence proof for `_normalize`.
-/

theorem charToNatOfNat (n : Nat) (hv : n.isValidChar) : (Char.ofNat n).toNat = n := by
  rw [Char.ofNat, dif_pos hv, Char.toNat, Char.ofNatAux]
  rfl

theorem char_eq_iff_toNat {c d : Char} : c = d ↔ c.toNat = d.toNat := by
  constructor
  · intro h; rw [h]
  · intro h
    apply Char.ext
    apply UInt32.ext_iff.mpr
    exact h

theorem char_isUpper_iff (c : Char) : c.isUpper = true ↔ 65 ≤ c.toNat ∧ c.toNat ≤ 90 := by
  rw [Char.isUpper, Bool.and_eq_true, decide_eq_true_eq, decide_eq_true_eq]
  exact Iff.rfl

theorem char_isLower_iff (c : Char) : c.isLower = true ↔ 97 ≤ c.toNat ∧ c.toNat ≤ 122 := by
  rw [Char.isLower, Bool.and_eq_true, decide_eq_true_eq, decide_eq_true_eq]
  exact Iff.rfl

theorem char_isDigit_iff (c : Char) : c.isDigit = true ↔ 48 ≤ c.toNat ∧ c.toNat ≤ 57 := by
  rw [Char.isDigit, Bool.and_eq_true, decide_eq_true_eq, decide_eq_true_eq]
  exact Iff.rfl

theorem char_isAlpha_iff (c : Char) :
    c.isAlpha = true ↔ (65 ≤ c.toNat ∧ c.toNat ≤ 90) ∨ (97 ≤ c.toNat ∧ c.toNat ≤ 122) := by
  rw [Char.isAlpha, Bool.or_eq_true, char_isUpper_iff, char_isLower_iff]

theorem char_toLower_of_upper (c : Char) (h : 65 ≤ c.toNat ∧ c.toNat ≤ 90) :
    (c.toLower).toNat = c.toNat + 32 := by
  rw [Char.toLower]
  rw [if_pos (by omega)]
  exact charToNatOfNat _ (Or.inl (by omega))

theorem char_toLower_of_not_upper (c : Char) (h : ¬ (65 ≤ c.toNat ∧ c.toNat ≤ 90)) :
    c.toLower = c := by
  rw [Char.toLower]
  rw [if_neg (by omega)]

theorem char_toLower_toLower (c : Char) : c.toLower.toLower = c.toLower := by
  by_cases h : 65 ≤ c.toNat ∧ c.toNat ≤ 90
  · have h1 := char_toLower_of_upper c h
    exact char_toLower_of_not_upper _ (by omega)
  · rw [char_toLower_of_not_upper c h, char_toLower_of_not_upper c h]

theorem char_toLower_isAlpha {c : Char} (h : c.isAlpha = true) : c.toLower.isAlpha = true := by
  rw [char_isAlpha_iff] at h ⊢
  rcases h with h | h
  · have h1 := char_toLower_of_upper c h
    omega
  · rw [char_toLower_of_not_upper c (by omega)]
    exact Or.inr h

theorem char_isSchemeChar_iff (c : Char) :
    isSchemeChar c = true ↔
      ((65 ≤ c.toNat ∧ c.toNat ≤ 90) ∨ (97 ≤ c.toNat ∧ c.toNat ≤ 122) ∨
       (48 ≤ c.toNat ∧ c.toNat ≤ 57) ∨ c.toNat = 43 ∨ c.toNat = 45 ∨ c.toNat = 46) := by
  rw [isSchemeChar]
  simp only [Bool.or_eq_true, decide_eq_true_eq, char_isAlpha_iff, char_isDigit_iff,
    char_eq_iff_toNat, (show ('+' : Char).toNat = 43 from rfl),
    (show ('-' : Char).toNat = 45 from rfl), (show ('.' : Char).toNat = 46 from rfl)]
  tauto

theorem char_toLower_isSchemeChar {c : Char} (h : isSchemeChar c = true) :
    isSchemeChar c.toLower = true := by
  rw [char_isSchemeChar_iff] at h ⊢
  by_cases hu : 65 ≤ c.toNat ∧ c.toNat ≤ 90
  · have h1 := char_toLower_of_upper c hu
    omega
  · rw [char_toLower_of_not_upper c hu]
    exact h

/-- A scheme character is printable ASCII other than the URL delimiters:
not a colon, slash, question mark, hash, semicolon, not unsafe, not
control/space. -/
theorem char_schemeChar_facts {c : Char} (h : isSchemeChar c = true) :
    c.toNat ≠ 58 ∧ isUnsafeUrlChar c = false ∧ isC0OrSpace c = false := by
  rw [char_isSchemeChar_iff] at h
  refine ⟨by omega, ?_, ?_⟩
  · rw [isUnsafeUrlChar]
    simp only [Bool.or_eq_false_iff, decide_eq_false_iff_not, char_eq_iff_toNat,
      (show ('\t' : Char).toNat = 9 from rfl), (show ('\r' : Char).toNat = 13 from rfl),
      (show ('\n' : Char).toNat = 10 from rfl)]
    omega
  · rw [isC0OrSpace]
    simp only [decide_eq_false_iff_not]
    omega

theorem char_alpha_facts {c : Char} (h : c.isAlpha = true) :
    c.toNat ≠ 58 ∧ isUnsafeUrlChar c = false ∧ isC0OrSpace c = false := by
  refine char_schemeChar_facts ?_
  rw [isSchemeChar, h]
  rfl

/-!
List take/drop helpers for the URL-splitting proofs.
-/

theorem takeWhile_all {p : Char → Bool} :
    ∀ {l : Str}, (∀ c ∈ l, p c = true) → l.takeWhile p = l := by
  intro l
  induction l with
  | nil => intro _; rfl
  | cons c t ih =>
    intro h
    rw [List.takeWhile_cons, if_pos (h c (List.mem_cons_self _ _))]
    rw [ih (fun x hx => h x (List.mem_cons_of_mem _ hx))]

theorem dropWhile_all {p : Char → Bool} :
    ∀ {l : Str}, (∀ c ∈ l, p c = true) → l.dropWhile p = [] := by
  intro l
  induction l with
  | nil => intro _; rfl
  | cons c t ih =>
    intro h
    rw [List.dropWhile_cons, if_pos (h c (List.mem_cons_self _ _))]
    exact ih (fun x hx => h x (List.mem_cons_of_mem _ hx))

theorem takeWhile_append_stop {p : Char → Bool} {a : Str} (d : Char) (b : Str)
    (ha : ∀ c ∈ a, p c = true) (hd : p d = false) :
    ((a ++ d :: b).takeWhile p) = a := by
  induction a with
  | nil => rw [List.nil_append, List.takeWhile_cons, if_neg (by rw [hd]; exact Bool.false_ne_true)]
  | cons c t ih =>
    rw [List.cons_append, List.takeWhile_cons, if_pos (ha c (List.mem_cons_self _ _))]
    rw [ih (fun x hx => ha x (List.mem_cons_of_mem _ hx))]

theorem dropWhile_append_stop {p : Char → Bool} {a : Str} (d : Char) (b : Str)
    (ha : ∀ c ∈ a, p c = true) (hd : p d = false) :
    ((a ++ d :: b).dropWhile p) = d :: b := by
  induction a with
  | nil => rw [List.nil_append, List.dropWhile_cons, if_neg (by rw [hd]; exact Bool.false_ne_true)]
  | cons c t ih =>
    rw [List.cons_append, List.dropWhile_cons, if_pos (ha c (List.mem_cons_self _ _))]
    rw [ih (fun x hx => ha x (List.mem_cons_of_mem _ hx))]

theorem mem_takeWhile {p : Char → Bool} :
    ∀ {l : Str} {x : Char}, x ∈ l.takeWhile p → x ∈ l ∧ p x = true := by
  intro l
  induction l with
  | nil => intro x hx; simp at hx
  | cons c t ih =>
    intro x hx
    rw [List.takeWhile_cons] at hx
    by_cases hc : p c = true
    · rw [if_pos hc] at hx
      rcases List.mem_cons.mp hx with rfl | hx
      · exact ⟨List.mem_cons_self _ _, hc⟩
      · obtain ⟨h1, h2⟩ := ih hx
        exact ⟨List.mem_cons_of_mem _ h1, h2⟩
    · rw [if_neg hc] at hx
      simp at hx

theorem mem_dropWhile {p : Char → Bool} :
    ∀ {l : Str} {x : Char}, x ∈ l.dropWhile p → x ∈ l := by
  intro l
  induction l with
  | nil => intro x hx; simp at hx
  | cons c t ih =>
    intro x hx
    rw [List.dropWhile_cons] at hx
    by_cases hc : p c = true
    · rw [if_pos hc] at hx
      exact List.mem_cons_of_mem _ (ih hx)
    · rw [if_neg hc] at hx
      exact hx

theorem dropWhile_head_false {p : Char → Bool} :
    ∀ {l : Str} {c : Char} {t : Str}, l.dropWhile p = c :: t → p c = false := by
  intro l
  induction l with
  | nil => intro c t h; simp at h
  | cons d l ih =>
    intro c t h
    rw [List.dropWhile_cons] at h
    by_cases hd : p d = true
    · rw [if_pos hd] at h; exact ih h
    · rw [if_neg hd] at h
      cases h
      exact Bool.not_eq_true _ |>.mp hd

theorem not_mem_of_dropWhile_nil {p : Char → Bool} :
    ∀ {l : Str} {x : Char}, l.dropWhile p = [] → x ∈ l → p x = true := by
  intro l
  induction l with
  | nil => intro x _ hx; simp at hx
  | cons c t ih =>
    intro x h hx
    rw [List.dropWhile_cons] at h
    by_cases hc : p c = true
    · rw [if_pos hc] at h
      rcases List.mem_cons.mp hx with rfl | hx
      · exact hc
      · exact ih h hx
    · rw [if_neg hc] at h
      cases h

theorem pyLower_good {c : Char} {cs : Str} (hc : c.isAlpha = true)
    (hcs : ∀ x ∈ cs, isSchemeChar x = true) : GoodSchemeLower (pyLower (c :: cs)) := by
  constructor
  · refine ⟨c.toLower, cs.map Char.toLower, rfl, char_toLower_isAlpha hc, ?_⟩
    intro x hx
    obtain ⟨y, hy, rfl⟩ := List.mem_map.mp hx
    exact char_toLower_isSchemeChar (hcs y hy)
  · show pyLower (pyLower (c :: cs)) = pyLower (c :: cs)
    rw [pyLower, pyLower, List.map_map]
    apply List.map_congr_left
    intro x _
    exact char_toLower_toLower x

theorem char_bne_iff {x d : Char} : (x != d) = true ↔ x.toNat ≠ d.toNat := by
  rw [bne_iff_ne, ne_eq, ne_eq, char_eq_iff_toNat]

theorem splitScheme_fst_ok (u : Str) :
    (splitScheme u).1 = [] ∨ GoodSchemeLower (splitScheme u).1 := by
  unfold splitScheme
  split
  · split
    · left; rfl
    · rename_i c cs heqb
      by_cases hcond : (c.isAlpha && cs.all isSchemeChar) = true
      · rw [if_pos hcond]
        right
        rw [Bool.and_eq_true] at hcond
        exact pyLower_good hcond.1 (fun x hx => List.all_eq_true.mp hcond.2 x hx)
      · rw [if_neg hcond]; left; rfl
  · left; rfl

theorem splitScheme_snd_sub (u : Str) : ∀ c ∈ (splitScheme u).2, c ∈ u := by
  unfold splitScheme
  split
  · rename_i after heq
    split
    · intro c hc; exact hc
    · rename_i c0 cs heqb
      by_cases hcond : (c0.isAlpha && cs.all isSchemeChar) = true
      · rw [if_pos hcond]
        intro c hc
        exact mem_dropWhile (heq ▸ List.mem_cons_of_mem _ hc)
      · rw [if_neg hcond]; intro c hc; exact hc
  · intro c hc; exact hc

theorem splitScheme_append (s body : Str) (hgs : GoodSchemeLower s) :
    splitScheme (s ++ ':' :: body) = (s, body) := by
  obtain ⟨⟨c, cs, rfl, hc, hcs⟩, hlow⟩ := hgs
  have hne : ∀ x ∈ c :: cs, (x != ':') = true := by
    intro x hx
    rcases List.mem_cons.mp hx with rfl | hx
    · exact char_bne_iff.mpr (char_alpha_facts hc).1
    · exact char_bne_iff.mpr (char_schemeChar_facts (hcs x hx)).1
  unfold splitScheme
  rw [takeWhile_append_stop ':' body hne (by simp), dropWhile_append_stop ':' body hne (by simp)]
  show (if (c.isAlpha && cs.all isSchemeChar) = true
      then (pyLower (c :: cs), body) else ([], (c :: cs) ++ ':' :: body)) = (c :: cs, body)
  rw [if_pos (by rw [Bool.and_eq_true]; exact ⟨hc, List.all_eq_true.mpr hcs⟩)]
  rw [hlow]

theorem splitNetloc_slashslash (rest : Str) :
    splitNetloc ('/' :: '/' :: rest) =
      (rest.takeWhile (fun c => !isNetlocEnd c), rest.dropWhile (fun c => !isNetlocEnd c)) := rfl

theorem splitNetloc_other (l : Str) (h : l.take 2 ≠ ['/', '/']) : splitNetloc l = ([], l) := by
  unfold splitNetloc
  split
  · simp at h
  · rfl

theorem splitNetloc_fst_facts (u : Str) :
    (∀ c ∈ (splitNetloc u).1, isNetlocEnd c = false ∧ c ∈ u) := by
  unfold splitNetloc
  split
  · intro c hc
    obtain ⟨h1, h2⟩ := mem_takeWhile hc
    exact ⟨by simpa using h2, List.mem_cons_of_mem _ (List.mem_cons_of_mem _ h1)⟩
  · intro c hc; simp at hc

theorem splitNetloc_snd_sub (u : Str) : ∀ c ∈ (splitNetloc u).2, c ∈ u := by
  unfold splitNetloc
  split
  · intro c hc
    exact List.mem_cons_of_mem _ (List.mem_cons_of_mem _ (mem_dropWhile hc))
  · intro c hc; exact hc

theorem char_ne_of_bne {x d : Char} (h : (x != d) = true) : x ≠ d := bne_iff_ne.mp h

theorem urlsplit_wf (url : Str) : SplitWF (urlsplit url) := by
  have hu1 : ∀ c ∈ preprocess url, isUnsafeUrlChar c = false := by
    intro c hc
    rw [preprocess] at hc
    have := List.mem_filter.mp hc
    simpa using this.2
  have hrest1 : ∀ c ∈ (splitScheme (preprocess url)).2, isUnsafeUrlChar c = false :=
    fun c hc => hu1 c (splitScheme_snd_sub _ c hc)
  have hrest2 : ∀ c ∈ (splitNetloc (splitScheme (preprocess url)).2).2,
      isUnsafeUrlChar c = false :=
    fun c hc => hrest1 c (splitNetloc_snd_sub _ c hc)
  refine ⟨splitScheme_fst_ok _, ?_, ?_, ?_⟩
  · intro c hc
    obtain ⟨h1, h2⟩ := splitNetloc_fst_facts _ c hc
    exact ⟨h1, hrest1 c h2⟩
  · intro c hc
    show c ≠ '#' ∧ c ≠ '?' ∧ isUnsafeUrlChar c = false
    have hc' := mem_takeWhile hc
    have hc'' := mem_takeWhile hc'.1
    exact ⟨char_ne_of_bne hc''.2, char_ne_of_bne hc'.2, hrest2 c hc''.1⟩
  · intro c hc
    show c ≠ '#' ∧ isUnsafeUrlChar c = false
    have hmem : c ∈ ((splitNetloc (splitScheme (preprocess url)).2).2.takeWhile
        (fun x => x != '#')) := mem_dropWhile (List.mem_of_mem_drop hc)
    have h1 := mem_takeWhile hmem
    exact ⟨char_ne_of_bne h1.2, hrest2 c h1.1⟩

theorem takeWhile_append_last {p : Char → Bool} (d : Char) (hd : p d = false) :
    ∀ a : Str, ((a ++ [d]).takeWhile p) = a.takeWhile p := by
  intro a
  induction a with
  | nil =>
    rw [List.nil_append, List.takeWhile_cons, if_neg (by rw [hd]; exact Bool.false_ne_true)]
    rfl
  | cons c t ih =>
    rw [List.cons_append, List.takeWhile_cons, List.takeWhile_cons]
    by_cases hc : p c = true
    · rw [if_pos hc, if_pos hc, ih]
    · rw [if_neg hc, if_neg hc]

theorem takeWhile_append_all {p : Char → Bool} :
    ∀ (a b : Str), (∀ c ∈ a, p c = true) → ((a ++ b).takeWhile p) = a ++ b.takeWhile p := by
  intro a
  induction a with
  | nil => intro b _; rfl
  | cons c t ih =>
    intro b h
    rw [List.cons_append, List.takeWhile_cons, if_pos (h c (List.mem_cons_self _ _))]
    rw [List.cons_append, ih b (fun x hx => h x (List.mem_cons_of_mem _ hx))]

theorem afterLastSlash_no_slash {s : Str} : ('/' : Char) ∉ afterLastSlash s := by
  intro h
  rw [afterLastSlash, List.mem_reverse] at h
  have := mem_takeWhile h
  simp at this

theorem afterLastSlash_cons_slash (s : Str) :
    afterLastSlash ('/' :: s) = afterLastSlash s := by
  rw [afterLastSlash, afterLastSlash, List.reverse_cons, takeWhile_append_last '/' (by simp)]

theorem afterLastSlash_append {x y : Str} (hy : ∀ c ∈ y, (c != '/') = true) :
    afterLastSlash (x ++ y) = afterLastSlash x ++ y := by
  rw [afterLastSlash, afterLastSlash, List.reverse_append]
  rw [takeWhile_append_all _ _ (fun c hc => hy c (List.mem_reverse.mp hc))]
  rw [List.reverse_append, List.reverse_reverse]

theorem afterLastSlash_of_no_slash {x : Str} (h : ('/' : Char) ∉ x) :
    afterLastSlash x = x := by
  rw [afterLastSlash]
  rw [takeWhile_all (fun c hc => bne_iff_ne.mpr
    (fun (he : c = '/') => h (he ▸ List.mem_reverse.mp hc)))]
  exact List.reverse_reverse x

theorem splitLastSlash_of_no_slash {s : Str} (h : ('/' : Char) ∉ s) :
    splitLastSlash s = none := by
  unfold splitLastSlash
  have hdw : s.reverse.dropWhile (fun c => c != '/') = [] :=
    dropWhile_all (fun c hc => bne_iff_ne.mpr (fun hcc => h (hcc ▸ List.mem_reverse.mp hc)))
  rw [hdw]

theorem splitLastSlash_of_slash {s : Str} (h : ('/' : Char) ∈ s) :
    ∃ a, splitLastSlash s = some (a, afterLastSlash s) ∧
      s = a ++ '/' :: afterLastSlash s := by
  have hmem : ('/' : Char) ∈ s.reverse := List.mem_reverse.mpr h
  obtain ⟨t, ht⟩ : ∃ t, s.reverse.dropWhile (fun c => c != '/') = '/' :: t := by
    cases hdw : s.reverse.dropWhile (fun c => c != '/') with
    | nil => exact absurd (not_mem_of_dropWhile_nil hdw hmem) (by simp)
    | cons d t =>
      have hd := dropWhile_head_false hdw
      have hd2 : d = '/' := by simpa using hd
      exact ⟨t, by rw [hd2]⟩
  refine ⟨t.reverse, ?_, ?_⟩
  · unfold splitLastSlash
    rw [ht]
    rfl
  · have hsplit : s.reverse.takeWhile (fun c => c != '/') ++
        s.reverse.dropWhile (fun c => c != '/') = s.reverse :=
      List.takeWhile_append_dropWhile _ _
    rw [ht] at hsplit
    have h2 := congrArg List.reverse hsplit
    rw [List.reverse_reverse, List.reverse_append, List.reverse_cons] at h2
    have h3 : t.reverse ++ ['/'] ++ (s.reverse.takeWhile (fun c => c != '/')).reverse
        = t.reverse ++ '/' :: (s.reverse.takeWhile (fun c => c != '/')).reverse := by
      simp
    exact h2.symm.trans h3

theorem splitparams_no_semi {x : Str} (hx : ('/' : Char) ∈ x)
    (hsem : (';' : Char) ∉ afterLastSlash x) : splitparams x = (x, []) := by
  obtain ⟨a, hsls, hdecomp⟩ := splitLastSlash_of_slash hx
  unfold splitparams
  simp only [hsls]
  have hdw : (afterLastSlash x).dropWhile (fun c => c != ';') = [] :=
    dropWhile_all (fun c hc => bne_iff_ne.mpr (fun (he : c = ';') => hsem (he ▸ hc)))
  rw [hdw]

theorem splitparams_join (w prm : Str) (hsem : (';' : Char) ∉ afterLastSlash w)
    (hprm : ('/' : Char) ∉ prm) : splitparams (w ++ ';' :: prm) = (w, prm) := by
  have hyns : ∀ c ∈ (';' :: prm : Str), (c != '/') = true := by
    intro c hc
    rcases List.mem_cons.mp hc with rfl | hc
    · simp
    · exact bne_iff_ne.mpr (fun (he : c = '/') => hprm (he ▸ hc))
  have hals : afterLastSlash (w ++ ';' :: prm) = afterLastSlash w ++ ';' :: prm :=
    afterLastSlash_append hyns
  have halw : ∀ c ∈ afterLastSlash w, (c != ';') = true :=
    fun c hc => bne_iff_ne.mpr (fun (he : c = ';') => hsem (he ▸ hc))
  by_cases hw : ('/' : Char) ∈ w
  · have hmem : ('/' : Char) ∈ w ++ ';' :: prm := List.mem_append_left _ hw
    obtain ⟨a2, hsls2, hdecomp2⟩ := splitLastSlash_of_slash hmem
    obtain ⟨a1, hsls1, hdecomp1⟩ := splitLastSlash_of_slash hw
    unfold splitparams
    simp only [hsls2, hals]
    rw [dropWhile_append_stop ';' prm halw (by simp)]
    rw [takeWhile_append_stop ';' prm halw (by simp)]
    have hweq : a2 ++ '/' :: afterLastSlash w = w := by
      have h1 : (a2 ++ '/' :: afterLastSlash w) ++ ';' :: prm = w ++ ';' :: prm := by
        rw [List.append_assoc]
        rw [show ('/' :: afterLastSlash w) ++ ';' :: prm
          = '/' :: (afterLastSlash w ++ ';' :: prm) from rfl]
        rw [← hals]
        exact hdecomp2.symm
      exact List.append_cancel_right h1
    rw [hweq]
    rfl
  · have hnos : ('/' : Char) ∉ w ++ ';' :: prm := by
      intro hmem
      rcases List.mem_append.mp hmem with hmem | hmem
      · exact hw hmem
      · rcases List.mem_cons.mp hmem with he | hmem
        · cases he
        · exact hprm hmem
    unfold splitparams
    simp only [splitLastSlash_of_no_slash hnos]
    have halw2 : ∀ c ∈ w, (c != ';') = true := by
      rw [← afterLastSlash_of_no_slash hw]
      exact halw
    rw [dropWhile_append_stop ';' prm halw2 (by simp)]
    rw [takeWhile_append_stop ';' prm halw2 (by simp)]
    rfl

theorem afterLastSlash_sub {s : Str} : ∀ c ∈ afterLastSlash s, c ∈ s := by
  intro c hc
  rw [afterLastSlash, List.mem_reverse] at hc
  exact List.mem_reverse.mp (mem_takeWhile hc).1

theorem afterLastSlash_append_slash {y z : Str} (hz : ('/' : Char) ∉ z) :
    afterLastSlash (y ++ '/' :: z) = z := by
  rw [afterLastSlash, List.reverse_append, List.reverse_cons, List.append_assoc]
  rw [takeWhile_append_all _ _ (fun c hc => bne_iff_ne.mpr
    (fun (he : c = '/') => hz (he ▸ List.mem_reverse.mp hc)))]
  rw [List.singleton_append, List.takeWhile_cons, if_neg (by simp)]
  simp

theorem splitparams_facts (x : Str) :
    (∀ c ∈ (splitparams x).1, c ∈ x) ∧
    (∀ c ∈ (splitparams x).2, c ∈ x ∧ c ≠ '/') ∧
    ((splitparams x).2 ≠ [] → (';' : Char) ∉ afterLastSlash (splitparams x).1) ∧
    ((splitparams x).2 = [] →
      ((';' : Char) ∉ (splitparams x).1 ∨
        (('/' : Char) ∈ (splitparams x).1 ∧
          (';' : Char) ∉ afterLastSlash (splitparams x).1))) := by
  by_cases hx : ('/' : Char) ∈ x
  · obtain ⟨a, hsls, hdecomp⟩ := splitLastSlash_of_slash hx
    have hnoslash : ('/' : Char) ∉ afterLastSlash x := afterLastSlash_no_slash
    unfold splitparams
    simp only [hsls]
    cases hdw : (afterLastSlash x).dropWhile (fun c => c != ';') with
    | nil =>
      have hnos : (';' : Char) ∉ afterLastSlash x := by
        intro hc
        have := not_mem_of_dropWhile_nil hdw hc
        simp at this
      exact ⟨fun c hc => hc, fun c hc => by simp at hc,
        fun h => absurd rfl h, fun _ => Or.inr ⟨hx, hnos⟩⟩
    | cons d b2 =>
      have hd : d = ';' := by
        have := dropWhile_head_false hdw
        simpa using this
      subst hd
      have hb1 : ∀ c ∈ (afterLastSlash x).takeWhile (fun c => c != ';'),
          c ∈ afterLastSlash x ∧ c ≠ ';' :=
        fun c hc => ⟨(mem_takeWhile hc).1, char_ne_of_bne (mem_takeWhile hc).2⟩
      have hb1ns : ('/' : Char) ∉ (afterLastSlash x).takeWhile (fun c => c != ';') :=
        fun hc => hnoslash (hb1 _ hc).1
      have hfstals : afterLastSlash (a ++ '/' :: (afterLastSlash x).takeWhile
          (fun c => c != ';')) = (afterLastSlash x).takeWhile (fun c => c != ';') :=
        afterLastSlash_append_slash hb1ns
      refine ⟨?_, ?_, ?_, ?_⟩
      · intro c hc
        rcases List.mem_append.mp hc with hc | hc
        · rw [hdecomp]; exact List.mem_append_left _ hc
        · rcases List.mem_cons.mp hc with rfl | hc
          · exact hx
          · exact afterLastSlash_sub c (hb1 c hc).1
      · intro c hc
        have hmem : c ∈ afterLastSlash x := by
          have : c ∈ (afterLastSlash x).dropWhile (fun c => c != ';') := by
            rw [hdw]; exact List.mem_cons_of_mem _ hc
          exact mem_dropWhile this
        exact ⟨afterLastSlash_sub c hmem, fun he => hnoslash (he ▸ hmem)⟩
      · intro _
        show (';' : Char) ∉ afterLastSlash
          (a ++ '/' :: (afterLastSlash x).takeWhile (fun c => c != ';'))
        rw [hfstals]
        intro hc
        exact absurd rfl (hb1 _ hc).2
      · intro _
        show (';' : Char) ∉ (a ++ '/' :: (afterLastSlash x).takeWhile (fun c => c != ';')) ∨ _
        refine Or.inr ⟨List.mem_append_right _ (List.mem_cons_self _ _), ?_⟩
        show (';' : Char) ∉ afterLastSlash
          (a ++ '/' :: (afterLastSlash x).takeWhile (fun c => c != ';'))
        rw [hfstals]
        intro hc
        exact absurd rfl (hb1 _ hc).2
  · unfold splitparams
    simp only [splitLastSlash_of_no_slash hx]
    cases hdw : x.dropWhile (fun c => c != ';') with
    | nil =>
      have hnos : (';' : Char) ∉ x := by
        intro hc
        have := not_mem_of_dropWhile_nil hdw hc
        simp at this
      exact ⟨fun c hc => hc, fun c hc => by simp at hc,
        fun h => absurd rfl h, fun _ => Or.inl hnos⟩
    | cons d u2 =>
      have hd : d = ';' := by
        have := dropWhile_head_false hdw
        simpa using this
      subst hd
      have htw : ∀ c ∈ x.takeWhile (fun c => c != ';'), c ∈ x ∧ c ≠ ';' :=
        fun c hc => ⟨(mem_takeWhile hc).1, char_ne_of_bne (mem_takeWhile hc).2⟩
      refine ⟨fun c hc => (htw c hc).1, ?_, ?_, ?_⟩
      · intro c hc
        have hmem : c ∈ x := by
          have hcc : c ∈ x.dropWhile (fun c => c != ';') := by
            rw [hdw]
            exact List.mem_cons_of_mem _ hc
          exact mem_dropWhile hcc
        exact ⟨hmem, fun he => hx (he ▸ hmem)⟩
      · intro _ hc
        exact absurd rfl (htw _ (afterLastSlash_sub _ hc)).2
      · intro _
        left
        intro hc
        exact absurd rfl (htw _ hc).2

theorem urlparse_wf (url : Str) : ParseWF (urlparse url) := by
  have hs := urlsplit_wf url
  rw [urlparse]
  by_cases hguard : (urlsplit url).scheme ∈ uses_params ∧ (';' : Char) ∈ (urlsplit url).path
  · rw [if_pos hguard]
    obtain ⟨hp1, hp2, hp3, hp4⟩ := splitparams_facts (urlsplit url).path
    exact
      { scheme_ok := hs.scheme_ok
        netloc_ok := hs.netloc_ok
        path_ok := fun c hc => hs.path_ok c (hp1 c hc)
        params_ok := fun c hc =>
          ⟨(hs.path_ok c (hp2 c hc).1).1, (hs.path_ok c (hp2 c hc).1).2.1,
            (hp2 c hc).2, (hs.path_ok c (hp2 c hc).1).2.2⟩
        query_ok := hs.query_ok
        semi_ok := hp3
        nosplit_ok := fun h => Or.inr (hp4 h) }
  · rw [if_neg hguard]
    exact
      { scheme_ok := hs.scheme_ok
        netloc_ok := hs.netloc_ok
        path_ok := hs.path_ok
        params_ok := fun c hc => by simp at hc
        query_ok := hs.query_ok
        semi_ok := fun h => absurd rfl h
        nosplit_ok := fun _ => by
          rcases Decidable.not_and_iff_or_not.mp hguard with h | h
          · exact Or.inl h
          · exact Or.inr (Or.inl h) }

theorem pyNormalizeUrl_inversion {base url v : Str} (h : pyNormalizeUrl base url = some v) :
    ∃ s n pth prm q : Str,
      v = urlunparse ⟨s, n, pth, prm, q, []⟩ ∧
      httpChars.isPrefixOf s = true ∧ GoodSchemeLower s ∧
      (∀ c ∈ n, isNetlocEnd c = false ∧ isUnsafeUrlChar c = false) ∧
      (n = [] → (urlparse base).netloc = []) ∧
      pth ≠ [] ∧ (∀ c ∈ pth, c ≠ '#' ∧ c ≠ '?' ∧ isUnsafeUrlChar c = false) ∧
      (∀ c ∈ prm, c ≠ '#' ∧ c ≠ '?' ∧ c ≠ '/' ∧ isUnsafeUrlChar c = false) ∧
      (prm ≠ [] → (';' : Char) ∉ afterLastSlash pth) ∧
      (prm = [] → (s ∉ uses_params ∨ (';' : Char) ∉ pth ∨
        (('/' : Char) ∈ pth ∧ (';' : Char) ∉ afterLastSlash pth))) ∧
      (∀ c ∈ q, c ≠ '#' ∧ isUnsafeUrlChar c = false) := by
  have W0 := urlparse_wf url
  have WB := urlparse_wf base
  have hslash : ∀ c ∈ (['/'] : Str), c ≠ '#' ∧ c ≠ '?' ∧ isUnsafeUrlChar c = false := by
    decide
  have hsemislash : (';' : Char) ∉ (['/'] : Str) := by decide
  rw [pyNormalizeUrl] at h
  split at h
  · simp at h
  · simp only [] at h
    by_cases hsc : (urlparse url).scheme = []
    · rw [if_pos hsc] at h
      simp only [] at h
      by_cases hnl : (urlparse url).netloc = []
      · rw [if_pos hnl] at h
        simp only [] at h
        split at h
        · rename_i hpre
          refine ⟨(urlparse base).scheme, (urlparse base).netloc, _, (urlparse url).params,
            (urlparse url).query, (Option.some.inj h).symm, hpre, ?_, WB.netloc_ok,
            fun hbn => hbn, ?_, ?_, W0.params_ok, ?_, ?_, W0.query_ok⟩
          · rcases WB.scheme_ok with hbs | hbs
            · rw [hbs] at hpre; simp [httpChars, List.isPrefixOf] at hpre
            · exact hbs
          · split
            · simp
            · assumption
          · split
            · exact hslash
            · exact W0.path_ok
          · intro hne
            split
            · decide
            · exact W0.semi_ok hne
          · intro heq
            split
            · exact Or.inr (Or.inl hsemislash)
            · rcases W0.nosplit_ok heq with hd | hd
              · rw [hsc] at hd
                exact absurd (by decide) hd
              · exact Or.inr hd
        · simp at h
      · rw [if_neg hnl] at h
        try simp only [] at h
        split at h
        · rename_i hpre
          refine ⟨(urlparse base).scheme, (urlparse url).netloc, _, (urlparse url).params,
            (urlparse url).query, (Option.some.inj h).symm, hpre, ?_, W0.netloc_ok,
            fun hbn => absurd hbn hnl, ?_, ?_, W0.params_ok, ?_, ?_, W0.query_ok⟩
          · rcases WB.scheme_ok with hbs | hbs
            · rw [hbs] at hpre; simp [httpChars, List.isPrefixOf] at hpre
            · exact hbs
          · split
            · simp
            · assumption
          · split
            · exact hslash
            · exact W0.path_ok
          · intro hne
            split
            · decide
            · exact W0.semi_ok hne
          · intro heq
            split
            · exact Or.inr (Or.inl hsemislash)
            · rcases W0.nosplit_ok heq with hd | hd
              · rw [hsc] at hd
                exact absurd (by decide) hd
              · exact Or.inr hd
        · simp at h
    · rw [if_neg hsc] at h
      by_cases hnl : (urlparse url).netloc = []
      · rw [if_pos hnl] at h
        simp only [] at h
        split at h
        · rename_i hpre
          refine ⟨(urlparse url).scheme, (urlparse base).netloc, _, (urlparse url).params,
            (urlparse url).query, (Option.some.inj h).symm, hpre, ?_, WB.netloc_ok,
            fun hbn => hbn, ?_, ?_, W0.params_ok, ?_, ?_, W0.query_ok⟩
          · rcases W0.scheme_ok with hbs | hbs
            · exact absurd hbs hsc
            · exact hbs
          · split
            · simp
            · assumption
          · split
            · exact hslash
            · exact W0.path_ok
          · intro hne
            split
            · decide
            · exact W0.semi_ok hne
          · intro heq
            split
            · exact Or.inr (Or.inl hsemislash)
            · exact W0.nosplit_ok heq
        · simp at h
      · rw [if_neg hnl] at h
        try simp only [] at h
        split at h
        · rename_i hpre
          refine ⟨(urlparse url).scheme, (urlparse url).netloc, _, (urlparse url).params,
            (urlparse url).query, (Option.some.inj h).symm, hpre, ?_, W0.netloc_ok,
            fun hbn => absurd hbn hnl, ?_, ?_, W0.params_ok, ?_, ?_, W0.query_ok⟩
          · rcases W0.scheme_ok with hbs | hbs
            · exact absurd hbs hsc
            · exact hbs
          · split
            · simp
            · assumption
          · split
            · exact hslash
            · exact W0.path_ok
          · intro hne
            split
            · decide
            · exact W0.semi_ok hne
          · intro heq
            split
            · exact Or.inr (Or.inl hsemislash)
            · exact W0.nosplit_ok heq
        · simp at h

theorem preprocess_cons (ch : Char) (rest : Str) (hch : isC0OrSpace ch = false)
    (h1 : ∀ c ∈ ch :: rest, isUnsafeUrlChar c = false) :
    preprocess (ch :: rest) = ch :: rest := by
  rw [preprocess, List.dropWhile_cons, if_neg (by rw [hch]; exact Bool.false_ne_true)]
  rw [List.filter_eq_self.mpr (fun c hc => by rw [h1 c hc]; rfl)]

theorem splitFragment_all {x : Str} (h : ∀ c ∈ x, (c != '#') = true) :
    splitFragment x = (x, []) := by
  rw [splitFragment, takeWhile_all h, dropWhile_all h]
  rfl

theorem splitQuery_append {x q : Str} (h : ∀ c ∈ x, (c != '?') = true) :
    splitQuery (x ++ '?' :: q) = (x, q) := by
  rw [splitQuery, takeWhile_append_stop '?' q h (by simp), dropWhile_append_stop '?' q h (by simp)]
  rfl

theorem splitQuery_all {x : Str} (h : ∀ c ∈ x, (c != '?') = true) :
    splitQuery x = (x, []) := by
  rw [splitQuery, takeWhile_all h, dropWhile_all h]
  rfl

theorem urlunsplit_eq (s n u q : Str) (hs : s ≠ []) :
    urlunsplit s n u q [] = s ++ ':' ::
      ((if n ≠ [] ∨ (u ≠ [] ∧ u.take 2 = ['/', '/']) then
          '/' :: '/' :: (n ++ (if u ≠ [] ∧ u.head? ≠ some '/' then '/' :: u else u))
        else u) ++ (if q ≠ [] then '?' :: q else [])) := by
  rw [urlunsplit]
  simp only [if_neg (show ¬(([] : Str) ≠ []) by simp), if_pos hs]
  by_cases hA : n ≠ [] ∨ (u ≠ [] ∧ u.take 2 = ['/', '/'])
  · rw [if_pos hA, if_pos hA]
    by_cases hq : q ≠ []
    · rw [if_pos hq, if_pos hq]
      simp [List.append_assoc]
    · rw [if_neg hq, if_neg hq]
      simp [List.append_assoc]
  · rw [if_neg hA, if_neg hA]
    by_cases hq : q ≠ []
    · rw [if_pos hq, if_pos hq]
      simp [List.append_assoc]
    · rw [if_neg hq, if_neg hq]
      simp [List.append_assoc]

theorem urlsplit_unsplit (s n u q : Str) (hgs : GoodSchemeLower s)
    (hn : ∀ c ∈ n, isNetlocEnd c = false ∧ isUnsafeUrlChar c = false)
    (hune : u ≠ []) (hu : ∀ c ∈ u, c ≠ '#' ∧ c ≠ '?' ∧ isUnsafeUrlChar c = false)
    (hq : ∀ c ∈ q, c ≠ '#' ∧ isUnsafeUrlChar c = false) :
    urlsplit (urlunsplit s n u q []) = ⟨s, n, prefixSlash n u, q, []⟩ := by
  obtain ⟨⟨ch, cs, hcons, hch, hcs⟩, hlow⟩ := hgs
  have hsne : s ≠ [] := by rw [hcons]; simp
  rw [urlunsplit_eq s n u q hsne]
  set inner : Str := if u ≠ [] ∧ u.head? ≠ some '/' then '/' :: u else u with hinner
  set core : Str := if n ≠ [] ∨ (u ≠ [] ∧ u.take 2 = ['/', '/']) then
      '/' :: '/' :: (n ++ inner) else u with hcore
  set qpart : Str := if q ≠ [] then '?' :: q else [] with hqpart
  have hinner_chars : ∀ c ∈ inner, c ≠ '#' ∧ c ≠ '?' ∧ isUnsafeUrlChar c = false := by
    rw [hinner]
    split
    · intro c hc
      rcases List.mem_cons.mp hc with rfl | hc
      · exact ⟨by decide, by decide, by decide⟩
      · exact hu c hc
    · exact hu
  have hqpart_chars : ∀ c ∈ qpart, c ≠ '#' ∧ isUnsafeUrlChar c = false := by
    rw [hqpart]
    split
    · intro c hc
      rcases List.mem_cons.mp hc with rfl | hc
      · exact ⟨by decide, by decide⟩
      · exact hq c hc
    · intro c hc
      simp at hc
  have hcore_chars : ∀ c ∈ core, c ≠ '#' ∧ isUnsafeUrlChar c = false := by
    rw [hcore]
    split
    · intro c hc
      rcases List.mem_cons.mp hc with rfl | hc
      · exact ⟨by decide, by decide⟩
      · rcases List.mem_cons.mp hc with rfl | hc
        · exact ⟨by decide, by decide⟩
        · rcases List.mem_append.mp hc with hc | hc
          · refine ⟨?_, (hn c hc).2⟩
            intro he
            have := (hn c hc).1
            rw [he] at this
            simp [isNetlocEnd] at this
          · exact ⟨(hinner_chars c hc).1, (hinner_chars c hc).2.2⟩
    · intro c hc
      exact ⟨(hu c hc).1, (hu c hc).2.2⟩
  have hs_chars : ∀ c ∈ s, isUnsafeUrlChar c = false := by
    rw [hcons]
    intro c hc
    rcases List.mem_cons.mp hc with rfl | hc
    · exact (char_alpha_facts hch).2.1
    · exact (char_schemeChar_facts (hcs c hc)).2.1
  have hbody_unsafe : ∀ c ∈ (s ++ ':' :: (core ++ qpart)), isUnsafeUrlChar c = false := by
    intro c hc
    rcases List.mem_append.mp hc with hc | hc
    · exact hs_chars c hc
    · rcases List.mem_cons.mp hc with rfl | hc
      · decide
      · rcases List.mem_append.mp hc with hc | hc
        · exact (hcore_chars c hc).2
        · exact (hqpart_chars c hc).2
  have hpre : preprocess (s ++ ':' :: (core ++ qpart)) = s ++ ':' :: (core ++ qpart) := by
    rw [hcons, List.cons_append]
    refine preprocess_cons ch (cs ++ ':' :: (core ++ qpart)) (char_alpha_facts hch).2.2 ?_
    rw [← List.cons_append, ← hcons]
    exact hbody_unsafe
  have hsch : splitScheme (s ++ ':' :: (core ++ qpart)) = (s, core ++ qpart) :=
    splitScheme_append s (core ++ qpart) ⟨⟨ch, cs, hcons, hch, hcs⟩, hlow⟩
  rw [urlsplit, hpre]
  by_cases hA : n ≠ [] ∨ (u ≠ [] ∧ u.take 2 = ['/', '/'])
  · obtain ⟨u2t, hu2t⟩ : ∃ t, inner = '/' :: t := by
      rw [hinner]
      by_cases hh : u ≠ [] ∧ u.head? ≠ some '/'
      · rw [if_pos hh]; exact ⟨u, rfl⟩
      · rw [if_neg hh]
        rcases u with _ | ⟨c0, u0⟩
        · exact absurd rfl hune
        · rw [Decidable.not_and_iff_or_not] at hh
          rcases hh with hh | hh
          · exact absurd (by simp) hh
          · simp at hh
            exact ⟨u0, by rw [hh]⟩
    have hsplitn : splitNetloc (core ++ qpart) = (n, inner ++ qpart) := by
      rw [hcore, if_pos hA, hu2t]
      rw [show ('/' :: '/' :: (n ++ '/' :: u2t)) ++ qpart
        = '/' :: '/' :: (n ++ '/' :: (u2t ++ qpart)) by simp]
      rw [splitNetloc_slashslash]
      rw [takeWhile_append_stop '/' (u2t ++ qpart)
        (fun c hc => by rw [(hn c hc).1]; rfl) (by decide)]
      rw [dropWhile_append_stop '/' (u2t ++ qpart)
        (fun c hc => by rw [(hn c hc).1]; rfl) (by decide)]
      rfl
    have hfrag : splitFragment (inner ++ qpart) = (inner ++ qpart, []) := by
      refine splitFragment_all ?_
      intro c hc
      rcases List.mem_append.mp hc with hc | hc
      · exact char_bne_iff.mpr (fun he =>
          absurd (char_eq_iff_toNat.mpr he) (hinner_chars c hc).1)
      · exact char_bne_iff.mpr (fun he =>
          absurd (char_eq_iff_toNat.mpr he) (hqpart_chars c hc).1)
    have hinner_noq : ∀ c ∈ inner, (c != '?') = true := fun c hc =>
      char_bne_iff.mpr (fun he =>
        absurd (char_eq_iff_toNat.mpr he) (hinner_chars c hc).2.1)
    have hps : prefixSlash n u = inner := by
      rw [prefixSlash, if_pos hA, hinner]
    by_cases hqne : q ≠ []
    · have hqp : qpart = '?' :: q := by rw [hqpart, if_pos hqne]
      have hquery : splitQuery (inner ++ qpart) = (inner, q) := by
        rw [hqp]; exact splitQuery_append hinner_noq
      simp only [hsch, hsplitn, hfrag, hquery, hps]
    · have hqp : qpart = [] := by rw [hqpart, if_neg hqne]
      have hquery : splitQuery (inner ++ qpart) = (inner, []) := by
        rw [hqp, List.append_nil]; exact splitQuery_all hinner_noq
      have hq0 : q = [] := by simpa using hqne
      simp only [hsch, hsplitn, hfrag, hquery, hps, hq0]
  · have hA2 := hA
    push_neg at hA2
    have hn0 : n = [] := hA2.1
    have hcu : core = u := by rw [hcore, if_neg hA]
    have hsplitn : splitNetloc (core ++ qpart) = ([], core ++ qpart) := by
      refine splitNetloc_other _ ?_
      rw [hcu]
      rcases u with _ | ⟨c1, u0⟩
      · exact absurd rfl hune
      · rcases u0 with _ | ⟨c2, u1⟩
        · rw [hqpart]
          by_cases hqne : q ≠ []
          · rw [if_pos hqne]
            intro hcontra
            rw [List.singleton_append, List.take_succ_cons, List.take_succ_cons] at hcontra
            simp at hcontra
          · rw [if_neg hqne]
            intro hcontra
            simp at hcontra
        · intro hcontra
          have h2 := hA2.2 (by simp)
          rw [List.cons_append, List.cons_append] at hcontra
          rw [List.take_succ_cons, List.take_succ_cons] at hcontra
          simp at hcontra
          obtain ⟨rfl, rfl⟩ := hcontra
          simp at h2
    have hfrag : splitFragment (core ++ qpart) = (core ++ qpart, []) := by
      refine splitFragment_all ?_
      intro c hc
      rcases List.mem_append.mp hc with hc | hc
      · exact char_bne_iff.mpr (fun he =>
          absurd (char_eq_iff_toNat.mpr he) (hcore_chars c hc).1)
      · exact char_bne_iff.mpr (fun he =>
          absurd (char_eq_iff_toNat.mpr he) (hqpart_chars c hc).1)
    have hu_noq : ∀ c ∈ u, (c != '?') = true := fun c hc =>
      char_bne_iff.mpr (fun he =>
        absurd (char_eq_iff_toNat.mpr he) (hu c hc).2.1)
    have hps : prefixSlash n u = u := by
      rw [prefixSlash, if_neg hA]
    by_cases hqne : q ≠ []
    · have hqp : qpart = '?' :: q := by rw [hqpart, if_pos hqne]
      have hquery : splitQuery (core ++ qpart) = (u, q) := by
        rw [hqp, hcu]; exact splitQuery_append hu_noq
      rw [hn0] at hps
      simp only [hsch, hsplitn, hfrag, hquery, hn0, hps]
    · have hqp : qpart = [] := by rw [hqpart, if_neg hqne]
      have hquery : splitQuery (core ++ qpart) = (u, []) := by
        rw [hqp, List.append_nil, hcu]; exact splitQuery_all hu_noq
      have hq0 : q = [] := by simpa using hqne
      rw [hn0] at hps
      simp only [hsch, hsplitn, hfrag, hquery, hn0, hq0, hps]

/-- `urlunsplit` is blind to the leading slash that `urlsplit` adds back to
the path of a URL with a netloc: unparsing the `prefixSlash`-adjusted path
gives the same string as unparsing the original path. -/
theorem urlunsplit_prefixSlash (s n u q : Str) (hs : s ≠ []) (hune : u ≠ []) :
    urlunsplit s n (prefixSlash n u) q [] = urlunsplit s n u q [] := by
  by_cases hh : u ≠ [] ∧ u.head? ≠ some '/'
  · by_cases hA : n ≠ [] ∨ (u ≠ [] ∧ u.take 2 = ['/', '/'])
    · have hn0 : n ≠ [] := by
        rcases hA with h | h
        · exact h
        · exfalso
          rcases u with _ | ⟨c, t⟩
          · exact hune rfl
          · rcases t with _ | ⟨c2, t2⟩
            · have h2 : ([c] : Str) = ['/', '/'] := h.2
              simp at h2
            · have h2 : ([c, c2] : Str) = ['/', '/'] := h.2
              simp at h2
              exact hh.2 (by simp [h2.1])
      have hP : prefixSlash n u = '/' :: u := by
        rw [prefixSlash, if_pos hA, if_pos hh]
      rw [hP, urlunsplit_eq s n _ q hs, urlunsplit_eq s n u q hs]
      have hA' : n ≠ [] ∨ (('/' :: u) ≠ [] ∧ ('/' :: u).take 2 = ['/', '/']) :=
        Or.inl hn0
      rw [if_pos hA', if_pos hA]
      have hh' : ¬(('/' :: u) ≠ [] ∧ ('/' :: u).head? ≠ some '/') := by simp
      rw [if_neg hh', if_pos hh]
    · have hP : prefixSlash n u = u := by rw [prefixSlash, if_neg hA]
      rw [hP]
  · have hP : prefixSlash n u = u := by
      rw [prefixSlash]
      by_cases hA : n ≠ [] ∨ (u ≠ [] ∧ u.take 2 = ['/', '/'])
      · rw [if_pos hA, if_neg hh]
      · rw [if_neg hA]
    rw [hP]

/-- `_normalize` is idempotent: a URL it has already produced passes through
unchanged, because the reassembled string parses back to the same components
up to the leading slash that `urlunsplit` inserts and ignores. -/
theorem pyNormalizeUrl_idem {base url v : Str}
    (h : pyNormalizeUrl base url = some v) : pyNormalizeUrl base v = some v := by
  obtain ⟨s, n, pth, prm, q, hv, hpre, hgs, hn, hnb, hpne, hpth, hprm, hsemi1, hsemi2, hq⟩ :=
    pyNormalizeUrl_inversion h
  have hsne : s ≠ [] := by
    intro h0
    rw [h0] at hpre
    simp [httpChars, List.isPrefixOf] at hpre
  set u : Str := if prm ≠ [] then pth ++ ';' :: prm else pth with hu
  have hune : u ≠ [] := by
    rw [hu]
    split
    · intro h0
      exact hpne (List.append_eq_nil.mp h0).1
    · exact hpne
  have huchars : ∀ c ∈ u, c ≠ '#' ∧ c ≠ '?' ∧ isUnsafeUrlChar c = false := by
    rw [hu]
    split
    · intro c hc
      rcases List.mem_append.mp hc with hc | hc
      · exact hpth c hc
      · rcases List.mem_cons.mp hc with rfl | hc
        · exact ⟨by decide, by decide, by decide⟩
        · exact ⟨(hprm c hc).1, (hprm c hc).2.1, (hprm c hc).2.2.2⟩
    · exact hpth
  have hv' : v = urlunsplit s n u q [] := by
    rw [hv, hu]
    rfl
  have hvne : v ≠ [] := by
    rw [hv', urlunsplit_eq s n u q hsne]
    simp
  have hvsplit : urlsplit v = ⟨s, n, prefixSlash n u, q, []⟩ := by
    rw [hv']
    exact urlsplit_unsplit s n u q hgs hn hune huchars hq
  set P : Str := prefixSlash n u with hP
  have hPcases : P = u ∨ P = '/' :: u := by
    rw [hP, prefixSlash]
    split
    · split
      · exact Or.inr rfl
      · exact Or.inl rfl
    · exact Or.inl rfl
  have hPne : P ≠ [] := by
    rcases hPcases with h0 | h0 <;> rw [h0]
    · exact hune
    · simp
  have hupv : ∃ pth2 prm2 : Str, urlparse v = ⟨s, n, pth2, prm2, q, []⟩ ∧ pth2 ≠ [] ∧
      (if prm2 ≠ [] then pth2 ++ ';' :: prm2 else pth2) = P := by
    rw [urlparse]
    simp only [hvsplit]
    by_cases hcond : s ∈ uses_params ∧ (';' : Char) ∈ P
    · rw [if_pos hcond]
      by_cases hprm0 : prm = []
      · have hupth : u = pth := by
          rw [hu, if_neg (by simpa using hprm0)]
        have hsemi_pth : (';' : Char) ∈ pth := by
          rcases hPcases with h0 | h0
          · rw [h0, hupth] at hcond
            exact hcond.2
          · rw [h0, hupth] at hcond
            rcases List.mem_cons.mp hcond.2 with he | he
            · exact absurd he (by decide)
            · exact he
        rcases hsemi2 hprm0 with hd | hd | hd
        · exact absurd hcond.1 hd
        · exact absurd hsemi_pth hd
        · have hPslash : ('/' : Char) ∈ P := by
            rcases hPcases with h0 | h0
            · rw [h0, hupth]
              exact hd.1
            · rw [h0]
              exact List.mem_cons_self '/' u
          have hPsem : (';' : Char) ∉ afterLastSlash P := by
            rcases hPcases with h0 | h0
            · rw [h0, hupth]
              exact hd.2
            · rw [h0, hupth, afterLastSlash_cons_slash]
              exact hd.2
          have hsp : splitparams P = (P, []) := splitparams_no_semi hPslash hPsem
          refine ⟨(splitparams P).1, (splitparams P).2, rfl, ?_, ?_⟩
          · rw [hsp]
            exact hPne
          · rw [hsp]
            rw [if_neg (by simp)]
      · have hupth : u = pth ++ ';' :: prm := by
          rw [hu, if_pos hprm0]
        have hsem : (';' : Char) ∉ afterLastSlash pth := hsemi1 hprm0
        have hprmns : ('/' : Char) ∉ prm := fun hc => (hprm '/' hc).2.2.1 rfl
        rcases hPcases with h0 | h0
        · have hsp : splitparams P = (pth, prm) := by
            rw [h0, hupth]
            exact splitparams_join pth prm hsem hprmns
          refine ⟨(splitparams P).1, (splitparams P).2, rfl, ?_, ?_⟩
          · rw [hsp]
            exact hpne
          · rw [hsp]
            rw [if_pos hprm0, h0, hupth]
        · have hsp : splitparams P = ('/' :: pth, prm) := by
            rw [h0, hupth, ← List.cons_append]
            exact splitparams_join ('/' :: pth) prm
              (by rw [afterLastSlash_cons_slash]; exact hsem) hprmns
          refine ⟨(splitparams P).1, (splitparams P).2, rfl, ?_, ?_⟩
          · rw [hsp]
            simp
          · rw [hsp]
            rw [if_pos hprm0, h0, hupth, List.cons_append]
    · rw [if_neg hcond]
      exact ⟨P, [], rfl, hPne, by rw [if_neg (by simp)]⟩
  obtain ⟨pth2, prm2, hup, hp2ne, hu2⟩ := hupv
  rw [pyNormalizeUrl, if_neg (by simpa using hvne)]
  simp only [hup]
  rw [if_neg hsne]
  simp only []
  by_cases hn0 : n = []
  · subst hn0
    rw [if_pos rfl, hnb rfl]
    rw [if_pos hpre]
    simp only []
    rw [if_neg hp2ne]
    rw [show urlunparse ⟨s, [], pth2, prm2, q, []⟩
      = urlunsplit s [] (if prm2 ≠ [] then pth2 ++ ';' :: prm2 else pth2) q [] from rfl]
    rw [hu2, hP, urlunsplit_prefixSlash s [] u q hsne hune, ← hv']
  · rw [if_neg hn0]
    rw [if_pos hpre]
    simp only []
    rw [if_neg hp2ne]
    rw [show urlunparse ⟨s, n, pth2, prm2, q, []⟩
      = urlunsplit s n (if prm2 ≠ [] then pth2 ++ ';' :: prm2 else pth2) q [] from rfl]
    rw [hu2, hP, urlunsplit_prefixSlash s n u q hsne hune, ← hv']

/-- C8: URL normalization is idempotent: for every URL string for which
`SiteScraper._normalize` returns a normalized value `v`, applying
`_normalize` to `v` returns `v` again. -/
theorem C8_normalize_idempotent (s : Scraper) (url v : Str)
    (h : s.normalize url = some v) : s.normalize v = some v :=
  pyNormalizeUrl_idem h

theorem C8_normalize_idempotent_witness :
    Scraper.normalize exScraperNoFetch exBase
      = some ['h','t','t','p',':','/','/','a','.','c','o','m','/'] ∧
    Scraper.normalize exScraperNoFetch ['h','t','t','p',':','/','/','a','.','c','o','m','/']
      = some ['h','t','t','p',':','/','/','a','.','c','o','m','/'] :=
  ⟨by decide, C8_normalize_idempotent exScraperNoFetch exBase _ (by decide)⟩
